import Mathlib

/-!
# Verification of the `jubjub` validator library (`src/lib/validators.js`)

This file gives a shallow embedding of the changeset-validator library and
proves (or refutes) the specification claims about it.

Modelling conventions:
* JavaScript values are modelled by the inductive `Value`.  JavaScript numbers
  are modelled as integers (`Int`); none of the claims depends on non-integral
  or IEEE-special numeric behaviour.
* String lengths use Lean's character count; the library is only ever applied
  to ordinary text where this agrees with JavaScript's `.length`.
* A thrown JavaScript exception is modelled by `Except.error`; validators that
  can throw return `Except String Changeset`, validators that cannot throw
  return `Changeset`.
* The changeset accessor layer (`src/lib/changeset.js`) and the generic
  functional helpers (`src/lib/utils.js`) are not part of the given sources;
  they are modelled from the specification (see the individual doc comments).
-/

/-- A JavaScript runtime value, as far as the validator library observes it:
`null`, `undefined`, booleans, (integer) numbers, strings, arrays and plain
objects. -/
inductive Value where
  | vNull
  | vUndefined
  | vBool (b : Bool)
  | vNum (n : Int)
  | vStr (s : String)
  | vArr (xs : List Value)
  | vObj (kvs : List (String × Value))

/-- Modelled from the spec: the deep-equality helper `isEqual` imported from
`./utils` (not among the given sources).  Per §4.5 of the spec it is a deep
structural equality; object fields are compared in order here, which agrees
with deep equality on all inputs the claims mention. -/
def isEqual : Value → Value → Bool
  | .vNull, .vNull => true
  | .vUndefined, .vUndefined => true
  | .vBool a, .vBool b => a == b
  | .vNum a, .vNum b => a == b
  | .vStr a, .vStr b => a == b
  | .vArr [], .vArr [] => true
  | .vArr (x :: xs), .vArr (y :: ys) => isEqual x y && isEqual (.vArr xs) (.vArr ys)
  | .vObj [], .vObj [] => true
  | .vObj ((k, v) :: xs), .vObj ((l, w) :: ys) =>
      k == l && isEqual v w && isEqual (.vObj xs) (.vObj ys)
  | _, _ => false

/-- JavaScript strict equality `===` as used on changeset values by
`exclusion`/`inclusion`.  Primitives compare by value; `===` on two arrays or
objects is reference equality, and the list of reserved/included option values
is always a fresh literal distinct from the pending change, so composite
values compare unequal in this embedding.  No coercion is performed. -/
def strictEq : Value → Value → Bool
  | .vNull, .vNull => true
  | .vUndefined, .vUndefined => true
  | .vBool a, .vBool b => a == b
  | .vNum a, .vNum b => a == b
  | .vStr a, .vStr b => a == b
  | _, _ => false

mutual

/-- JavaScript `ToString` on the values of this embedding (used by the numeric
coercions below): arrays join their elements with commas, plain objects
stringify to `[object Object]`. -/
def jsValToString : Value → String
  | .vNull => "null"
  | .vUndefined => "undefined"
  | .vBool b => cond b "true" "false"
  | .vNum n => toString n
  | .vStr s => s
  | .vObj _ => "[object Object]"
  | .vArr xs => jsArrBody xs

/-- Body of `Array.prototype.toString`: elements joined by `,`, with `null`
and `undefined` elements contributing the empty string. -/
def jsArrBody : List Value → String
  | [] => ""
  | [x] => jsElemToString x
  | x :: rest => jsElemToString x ++ "," ++ jsArrBody rest

/-- How one array element is rendered inside `Array.prototype.toString`. -/
def jsElemToString : Value → String
  | .vNull => ""
  | .vUndefined => ""
  | v => jsValToString v

end

/-- JavaScript `StringNumericLiteral` parsing, restricted to the integers of
this embedding: surrounding whitespace is trimmed, the empty string converts
to `0`, an optionally signed run of decimal digits converts to its value, and
anything else is NaN (`none`). -/
def parseJsNumber (s : String) : Option Int :=
  let t := s.trim
  if t = "" then some 0
  else
    let (sign, digits) :=
      if t.startsWith "-" then ((-1 : Int), t.drop 1)
      else if t.startsWith "+" then ((1 : Int), t.drop 1)
      else ((1 : Int), t)
    if digits ≠ "" && digits.all Char.isDigit then
      some (sign * (digits.foldl (fun acc c => acc * 10 + (c.toNat - 48)) 0 : Nat))
    else none

/-- JavaScript `ToPrimitive` with number hint: primitives are returned as is,
arrays and objects go through `ToString`. -/
def toPrimitiveNum : Value → Value
  | .vArr xs => .vStr (jsValToString (.vArr xs))
  | .vObj kvs => .vStr (jsValToString (.vObj kvs))
  | v => v

/-- JavaScript `ToNumber`, with `none` standing for NaN. -/
def jsToNumber (v : Value) : Option Int :=
  match toPrimitiveNum v with
  | .vNull => some 0
  | .vUndefined => none
  | .vBool b => some (cond b 1 0)
  | .vNum n => some n
  | .vStr s => parseJsNumber s
  | _ => none

/-- JavaScript `value < number` where the right operand is a number: the left
operand is coerced with `ToNumber`; a NaN comparison is false. -/
def jsLtNum (v : Value) (n : Int) : Bool :=
  match jsToNumber v with
  | some m => m < n
  | none => false

/-- JavaScript `value > number` where the right operand is a number. -/
def jsGtNum (v : Value) (n : Int) : Bool :=
  match jsToNumber v with
  | some m => m > n
  | none => false

/-- JavaScript `value <= number` where the right operand is a number. -/
def jsLeNum (v : Value) (n : Int) : Bool :=
  match jsToNumber v with
  | some m => m ≤ n
  | none => false

/-- JavaScript `value >= number` where the right operand is a number. -/
def jsGeNum (v : Value) (n : Int) : Bool :=
  match jsToNumber v with
  | some m => m ≥ n
  | none => false

/-- JavaScript loose equality `value == number` where the right operand is a
number: `null` and `undefined` are equal only to each other, every other value
is coerced with `ToNumber`. -/
def jsLooseEqNum (v : Value) (n : Int) : Bool :=
  match v with
  | .vNull => false
  | .vUndefined => false
  | w =>
      match jsToNumber w with
      | some m => m == n
      | none => false

/-- One recorded validation failure (spec §3, "Error descriptor"): a message,
the tag of the rule that failed, and the rule-specific extra attributes
(`min`/`max`, `number`, `reserved`/`include`, `confirmation`, ...), stored as
a key-value list.  The pattern of `format` is recorded by its source string. -/
structure ErrorDesc where
  message : String
  validation : String
  extra : List (String × Value)

/-- The changeset (spec §3): persisted `data`, proposed `changes` and
accumulated `errors`, each a key-value list over field names. -/
structure Changeset where
  data : List (String × Value)
  changes : List (String × Value)
  errors : List (String × List ErrorDesc)

/-- Modelled from the spec: the accessor `getChange` of `src/lib/changeset.js`
(not among the given sources).  Spec §6 gives its shape
`getChange(field, changeset) -> (found: bool, value)`; §8 additionally fixes
that a change holding `null` does not count as a pending change (after
`required` writes `null`, a following `length` must no-op rather than throw),
so `found` is false exactly when the field is absent from `changes` or its
stored value is `null`/`undefined`; the raw stored value is returned either
way (`undefined` when the field is absent). -/
def getChange (field : String) (cs : Changeset) : Bool × Value :=
  match List.lookup field cs.changes with
  | some .vNull => (false, .vNull)
  | some .vUndefined => (false, .vUndefined)
  | some v => (true, v)
  | none => (false, .vUndefined)

/-- Modelled from the spec: the accessor `getField` of `src/lib/changeset.js`
(not among the given sources).  Spec §6: reads the persisted `data`. -/
def getField (field : String) (cs : Changeset) : Bool × Value :=
  match List.lookup field cs.data with
  | some v => (true, v)
  | none => (false, .vUndefined)

/-- Insert-or-replace on a key-value list (the write primitive beneath
`putChange`). -/
def updateA {α : Type} (field : String) (v : α) : List (String × α) → List (String × α)
  | [] => [(field, v)]
  | (g, w) :: rest =>
      if g = field then (field, v) :: rest else (g, w) :: updateA field v rest

/-- Append one error descriptor to a field's error list, creating the entry if
the field has none yet (the write primitive beneath `putError`). -/
def appendErr (field : String) (e : ErrorDesc) :
    List (String × List ErrorDesc) → List (String × List ErrorDesc)
  | [] => [(field, [e])]
  | (g, es) :: rest =>
      if g = field then (g, es ++ [e]) :: rest else (g, es) :: appendErr field e rest

/-- Modelled from the spec: the accessor `putChange` of `src/lib/changeset.js`
(not among the given sources).  Spec §6: writes a pending change, returning a
new changeset. -/
def putChange (field : String) (v : Value) (cs : Changeset) : Changeset :=
  { cs with changes := updateA field v cs.changes }

/-- Modelled from the spec: the accessor `putError` of `src/lib/changeset.js`
(not among the given sources).  Spec §6 and §3: appends one error descriptor
to the field's ordered error list, returning a new changeset. -/
def putError (field : String) (e : ErrorDesc) (cs : Changeset) : Changeset :=
  { cs with errors := appendErr field e cs.errors }

/-- The errors currently recorded for a field (empty when the field is absent
from the error map). -/
def errorsFor (field : String) (cs : Changeset) : List ErrorDesc :=
  (List.lookup field cs.errors).getD []

/-- Options of `required`: `{ fields, message = "can't be blank" }`. -/
structure RequiredOpts where
  fields : List String
  message : Option String

/-- Options of `length`: `{ message, min, max, fields }`. -/
structure LengthOpts where
  fields : List String
  message : Option String
  min : Int
  max : Int

/-- Options of `acceptance`: `{ message = 'must be accepted', fields }`. -/
structure AcceptanceOpts where
  fields : List String
  message : Option String

/-- Options of `change`: `{ validator, fields }`, with the caller-supplied
validator embedded by its extension `Value → List ErrorDesc`. -/
structure ChangeOpts where
  fields : List String
  validator : Value → List ErrorDesc

/-- Options of `confirmation`: `{ message = 'does not match', fields }`. -/
structure ConfirmationOpts where
  fields : List String
  message : Option String

/-- Options of `exclusion`: `{ message = 'is reserved', fields, reserved }`. -/
structure ExclusionOpts where
  fields : List String
  message : Option String
  reserved : List Value

/-- Options of `inclusion`: `{ message = 'is invalid', fields, include }`. -/
structure InclusionOpts where
  fields : List String
  message : Option String
  «include» : List Value

/-- A regular expression, embedded as its source text together with the
extension of its matching test (`value.match(p)` is truthy iff `p.test`). -/
structure Pattern where
  source : String
  test : String → Bool

/-- Options of `format`: `{ message = 'has invalid format', fields, match }`. -/
structure FormatOpts where
  fields : List String
  message : Option String
  «match» : Pattern

/-- Options of the numeric comparison validators:
`{ message, number, fields }`. -/
structure NumberOpts where
  fields : List String
  message : Option String
  number : Int

/-- `Array.prototype.reduce` over the fields when the reducer can throw: the
first `Except.error` aborts the whole validator call. -/
def foldE (step : Changeset → String → Except String Changeset) :
    List String → Changeset → Except String Changeset
  | [], cs => .ok cs
  | f :: rest, cs =>
      match step cs f with
      | .error e => .error e
      | .ok c2 => foldE step rest c2

/-- The presence test of `required` (validators.js lines 32-36): a value is
present iff it is a non-blank string, any number, any boolean, or a non-null
object (arrays and plain objects both have `typeof` `'object'`). -/
def requiredValid : Value → Bool
  | .vStr s => !(s.toList.all Char.isWhitespace)
  | .vNum _ => true
  | .vBool _ => true
  | .vNull => false
  | .vUndefined => false
  | .vArr _ => true
  | .vObj _ => true

/-- The per-field reducer of `required` (validators.js lines 38-51): read the
pending change, fall back to the persisted value, and on absence append a
`required` error and force the change to `null`. -/
def requiredStep (message : String) (cs : Changeset) (field : String) : Changeset :=
  let (ok, value) := getChange field cs
  let (_, value) := if !ok then getField field cs else (ok, value)
  if requiredValid value then cs
  else putChange field .vNull (putError field ⟨message, "required", []⟩ cs)

/-- `required` (validators.js lines 31-52). -/
def required (opts : RequiredOpts) (cs : Changeset) : Changeset :=
  opts.fields.foldl (requiredStep (opts.message.getD "can't be blank")) cs

/-- The per-field reducer of `length` (validators.js lines 77-117): skip when
there is no pending change; throw on a non-string non-array value; otherwise
compute the candidate messages in source order with last assignment winning
(`is` when `min == max` and the length equals `min`, then `min` when too
short, then `max` when too long) and append a `length` error when one was
assigned.  A caller-supplied message (`customMessage`) overrides the computed
one. -/
def lengthStep (customMessage : Option String) (min max : Int)
    (cs : Changeset) (field : String) : Except String Changeset :=
  let (ok, value) := getChange field cs
  if !ok then .ok cs
  else
    let isString := match value with | .vStr _ => true | _ => false
    let isArr := match value with | .vArr _ => true | _ => false
    if !(isString || isArr) then
      .error ("Invalid type of \"" ++ field ++ "\". Valid types: string, array.")
    else
      let msgIs : Int → String := fun x =>
        if isString then "should be " ++ toString x ++ " character(s)"
        else "should have " ++ toString x ++ " items(s)"
      let msgMin : Int → String := fun x =>
        if isString then "should be at least " ++ toString x ++ " character(s)"
        else "should have at least " ++ toString x ++ " items(s)"
      let msgMax : Int → String := fun x =>
        if isString then "should be at most " ++ toString x ++ " character(s)"
        else "should have at most " ++ toString x ++ " items(s)"
      let len : Int := match value with
        | .vStr s => s.length
        | .vArr xs => xs.length
        | _ => 0
      let message : Option String := none
      let message := if min == max && min == len then some (msgIs min) else message
      let message := if len < min then some (msgMin min) else message
      let message := if len > max then some (msgMax max) else message
      match message with
      | some m =>
          .ok (putError field
            ⟨customMessage.getD m, "length", [("min", .vNum min), ("max", .vNum max)]⟩ cs)
      | none => .ok cs

/-- `length` (validators.js lines 76-118). -/
def length (opts : LengthOpts) (cs : Changeset) : Except String Changeset :=
  foldE (lengthStep opts.message opts.min opts.max) opts.fields cs

/-- The per-field reducer of `acceptance` (validators.js lines 130-139): skip
when there is no pending change, throw on a non-boolean value, pass on `true`
and append an `acceptance` error on `false`. -/
def acceptanceStep (message : String) (cs : Changeset) (field : String) :
    Except String Changeset :=
  let (ok, value) := getChange field cs
  if !ok then .ok cs
  else
    match value with
    | .vBool b =>
        if b then .ok cs
        else .ok (putError field ⟨message, "acceptance", []⟩ cs)
    | _ => .error ("Invalid type of " ++ field ++ ". Valid types: boolean.")

/-- `acceptance` (validators.js lines 129-140). -/
def acceptance (opts : AcceptanceOpts) (cs : Changeset) : Except String Changeset :=
  foldE (acceptanceStep (opts.message.getD "must be accepted")) opts.fields cs

/-- The per-field reducer of `change` (validators.js lines 153-161): skip when
there is no pending change, otherwise append every descriptor returned by the
caller-supplied validator, in order. -/
def changeStep (validator : Value → List ErrorDesc) (cs : Changeset) (field : String) :
    Changeset :=
  let (ok, value) := getChange field cs
  if !ok then cs
  else (validator value).foldl (fun c e => putError field e c) cs

/-- `change` (validators.js lines 152-162). -/
def change (opts : ChangeOpts) (cs : Changeset) : Changeset :=
  opts.fields.foldl (changeStep opts.validator) cs

/-- The per-field reducer of `confirmation` (validators.js lines 176-193):
read the pending changes of the field and of its `...Confirmation` companion;
skip when neither exists; otherwise compare them with deep equality and on
mismatch append a `confirmation` error on the field, carrying the
confirmation value. -/
def confirmationStep (message : String) (cs : Changeset) (field : String) : Changeset :=
  let confirmationField := field ++ "Confirmation"
  let (okValue, value) := getChange field cs
  let (okConfirmation, confirmation) := getChange confirmationField cs
  if !okValue && !okConfirmation then cs
  else if isEqual value confirmation then cs
  else putError field ⟨message, "confirmation", [("confirmation", confirmation)]⟩ cs

/-- `confirmation` (validators.js lines 175-194). -/
def confirmation (opts : ConfirmationOpts) (cs : Changeset) : Changeset :=
  opts.fields.foldl (confirmationStep (opts.message.getD "does not match")) cs

/-- The per-field reducer of `exclusion` (validators.js lines 207-218): skip
when there is no pending change or when the value strictly equals no reserved
entry; otherwise append an `exclusion` error carrying the reserved list. -/
def exclusionStep (message : String) (reserved : List Value)
    (cs : Changeset) (field : String) : Changeset :=
  let (ok, value) := getChange field cs
  if !ok then cs
  else if !(reserved.any fun x => strictEq x value) then cs
  else putError field ⟨message, "exclusion", [("reserved", .vArr reserved)]⟩ cs

/-- `exclusion` (validators.js lines 206-219). -/
def exclusion (opts : ExclusionOpts) (cs : Changeset) : Changeset :=
  opts.fields.foldl (exclusionStep (opts.message.getD "is reserved") opts.reserved) cs

/-- The per-field reducer of `inclusion` (validators.js lines 232-243): skip
when there is no pending change or when the value strictly equals some
included entry; otherwise append an `inclusion` error carrying the list. -/
def inclusionStep (message : String) (includeVals : List Value)
    (cs : Changeset) (field : String) : Changeset :=
  let (ok, value) := getChange field cs
  if !ok then cs
  else if includeVals.any fun x => strictEq x value then cs
  else putError field ⟨message, "inclusion", [("include", .vArr includeVals)]⟩ cs

/-- `inclusion` (validators.js lines 231-244). -/
def inclusion (opts : InclusionOpts) (cs : Changeset) : Changeset :=
  opts.fields.foldl (inclusionStep (opts.message.getD "is invalid") opts.«include») cs

/-- The per-field reducer of `format` (validators.js lines 258-271): skip when
there is no pending change, throw on a non-string value, pass when the value
matches the pattern and append a `format` error (carrying the pattern)
otherwise. -/
def formatStep (message : String) (pat : Pattern) (cs : Changeset) (field : String) :
    Except String Changeset :=
  let (ok, value) := getChange field cs
  if !ok then .ok cs
  else
    match value with
    | .vStr s =>
        if pat.test s then .ok cs
        else .ok (putError field ⟨message, "format", [("match", .vStr pat.source)]⟩ cs)
    | _ => .error ("Invalid type of " ++ field ++ ". Valid types: string.")

/-- `format` (validators.js lines 257-272). -/
def format (opts : FormatOpts) (cs : Changeset) : Except String Changeset :=
  foldE (formatStep (opts.message.getD "has invalid format") opts.«match») opts.fields cs

/-- The per-field reducer of the numeric comparison validators (validators.js
lines 285-407), parameterised by the comparison, its tag and the resolved
message: skip when there is no pending change, pass when the comparison
holds, append an error carrying `number` otherwise. -/
def comparisonStep (cmp : Value → Int → Bool) (tag : String) (message : String)
    (number : Int) (cs : Changeset) (field : String) : Changeset :=
  let (ok, value) := getChange field cs
  if !ok then cs
  else if cmp value number then cs
  else putError field ⟨message, tag, [("number", .vNum number)]⟩ cs

/-- `lessThan` (validators.js lines 285-298). -/
def lessThan (opts : NumberOpts) (cs : Changeset) : Changeset :=
  opts.fields.foldl
    (comparisonStep jsLtNum "less than"
      (opts.message.getD ("must be less than " ++ toString opts.number)) opts.number) cs

/-- `greaterThan` (validators.js lines 312-325). -/
def greaterThan (opts : NumberOpts) (cs : Changeset) : Changeset :=
  opts.fields.foldl
    (comparisonStep jsGtNum "greater than"
      (opts.message.getD ("must be greater than " ++ toString opts.number)) opts.number) cs

/-- `lessThanOrEqualTo` (validators.js lines 339-352). -/
def lessThanOrEqualTo (opts : NumberOpts) (cs : Changeset) : Changeset :=
  opts.fields.foldl
    (comparisonStep jsLeNum "less than or equal to"
      (opts.message.getD ("must be less than or equal to " ++ toString opts.number))
      opts.number) cs

/-- `greaterThanOrEqualTo` (validators.js lines 366-379). -/
def greaterThanOrEqualTo (opts : NumberOpts) (cs : Changeset) : Changeset :=
  opts.fields.foldl
    (comparisonStep jsGeNum "greater than or equal to"
      (opts.message.getD ("must be greater than or equal to " ++ toString opts.number))
      opts.number) cs

/-- `equalTo` (validators.js lines 393-406), using loose equality `==`. -/
def equalTo (opts : NumberOpts) (cs : Changeset) : Changeset :=
  opts.fields.foldl
    (comparisonStep jsLooseEqNum "equal to"
      (opts.message.getD ("must be equal to " ++ toString opts.number)) opts.number) cs

/-- One call of one validator of the exported library (`module.exports`,
validators.js lines 19-410), together with its bound options. -/
inductive ValidatorCall where
  | vcRequired (opts : RequiredOpts)
  | vcLength (opts : LengthOpts)
  | vcAcceptance (opts : AcceptanceOpts)
  | vcChange (opts : ChangeOpts)
  | vcConfirmation (opts : ConfirmationOpts)
  | vcExclusion (opts : ExclusionOpts)
  | vcInclusion (opts : InclusionOpts)
  | vcFormat (opts : FormatOpts)
  | vcLessThan (opts : NumberOpts)
  | vcGreaterThan (opts : NumberOpts)
  | vcLessThanOrEqualTo (opts : NumberOpts)
  | vcGreaterThanOrEqualTo (opts : NumberOpts)
  | vcEqualTo (opts : NumberOpts)

/-- Whether the call is a `required` call (the one validator that writes to
`changes`). -/
def ValidatorCall.isRequired : ValidatorCall → Bool
  | .vcRequired _ => true
  | _ => false

/-- Run one validator call; validators that cannot throw are wrapped in
`Except.ok`. -/
def runValidator : ValidatorCall → Changeset → Except String Changeset
  | .vcRequired o, cs => .ok (required o cs)
  | .vcLength o, cs => length o cs
  | .vcAcceptance o, cs => acceptance o cs
  | .vcChange o, cs => .ok (change o cs)
  | .vcConfirmation o, cs => .ok (confirmation o cs)
  | .vcExclusion o, cs => .ok (exclusion o cs)
  | .vcInclusion o, cs => .ok (inclusion o cs)
  | .vcFormat o, cs => format o cs
  | .vcLessThan o, cs => .ok (lessThan o cs)
  | .vcGreaterThan o, cs => .ok (greaterThan o cs)
  | .vcLessThanOrEqualTo o, cs => .ok (lessThanOrEqualTo o cs)
  | .vcGreaterThanOrEqualTo o, cs => .ok (greaterThanOrEqualTo o cs)
  | .vcEqualTo o, cs => .ok (equalTo o cs)

/-- Whether a validator call threw (`Except.error`); a thrown call returns no
changeset at all. -/
def throws (r : Except String Changeset) : Bool :=
  match r with
  | .error _ => true
  | .ok _ => false

/-- The `data` of the changeset a validator call returned, when it did not
throw. -/
def resData (r : Except String Changeset) : Option (List (String × Value)) :=
  match r with
  | .ok c => some c.data
  | .error _ => none

/-- The `changes` of the changeset a validator call returned, when it did not
throw. -/
def resChanges (r : Except String Changeset) : Option (List (String × Value)) :=
  match r with
  | .ok c => some c.changes
  | .error _ => none

/-- Total number of recorded error descriptors in an error map. -/
def errListCount : List (String × List ErrorDesc) → Nat
  | [] => 0
  | (_, es) :: rest => es.length + errListCount rest

/-- Total number of recorded error descriptors in a changeset. -/
def errCount (cs : Changeset) : Nat := errListCount cs.errors

theorem errListCount_appendErr (field : String) (e : ErrorDesc)
    (l : List (String × List ErrorDesc)) :
    errListCount (appendErr field e l) = errListCount l + 1 := by
  induction l with
  | nil => simp [appendErr, errListCount]
  | cons p rest ih =>
      obtain ⟨g, es⟩ := p
      by_cases h : g = field <;> simp [appendErr, errListCount, h, ih] <;> omega

theorem errCount_putError (field : String) (e : ErrorDesc) (cs : Changeset) :
    errCount (putError field e cs) = errCount cs + 1 := by
  simp [errCount, putError, errListCount_appendErr]

theorem data_putError (field : String) (e : ErrorDesc) (cs : Changeset) :
    (putError field e cs).data = cs.data := rfl

theorem changes_putError (field : String) (e : ErrorDesc) (cs : Changeset) :
    (putError field e cs).changes = cs.changes := rfl

theorem data_putChange (field : String) (v : Value) (cs : Changeset) :
    (putChange field v cs).data = cs.data := rfl

theorem errors_putChange (field : String) (v : Value) (cs : Changeset) :
    (putChange field v cs).errors = cs.errors := rfl

theorem errCount_putChange (field : String) (v : Value) (cs : Changeset) :
    errCount (putChange field v cs) = errCount cs := rfl

theorem lookup_updateA {α : Type} (g field : String) (v : α) (l : List (String × α)) :
    List.lookup g (updateA field v l) =
      if g = field then some v else List.lookup g l := by
  induction l with
  | nil =>
      by_cases h : g = field
      · subst h; simp [updateA, List.lookup]
      · simp [updateA, List.lookup, h, beq_eq_false_iff_ne.mpr h]
  | cons p rest ih =>
      obtain ⟨k, w⟩ := p
      by_cases hk : k = field
      · subst hk
        by_cases hg : g = k
        · subst hg; simp [updateA, List.lookup]
        · simp [updateA, List.lookup, hg, beq_eq_false_iff_ne.mpr hg]
      · by_cases hg : g = k
        · subst hg
          simp [updateA, List.lookup, hk, Ne.symm hk]
        · simp [updateA, List.lookup, hk, hg, beq_eq_false_iff_ne.mpr hg, ih]

theorem lookup_appendErr (g field : String) (e : ErrorDesc)
    (l : List (String × List ErrorDesc)) :
    List.lookup g (appendErr field e l) =
      if g = field then some ((List.lookup field l).getD [] ++ [e])
      else List.lookup g l := by
  induction l with
  | nil =>
      by_cases h : g = field
      · subst h; simp [appendErr, List.lookup]
      · simp [appendErr, List.lookup, h, beq_eq_false_iff_ne.mpr h]
  | cons p rest ih =>
      obtain ⟨k, es⟩ := p
      by_cases hk : k = field
      · subst hk
        by_cases hg : g = k
        · subst hg; simp [appendErr, List.lookup]
        · simp [appendErr, List.lookup, hg, beq_eq_false_iff_ne.mpr hg]
      · by_cases hg : g = k
        · subst hg
          simp [appendErr, List.lookup, hk, Ne.symm hk,
            beq_eq_false_iff_ne.mpr (Ne.symm hk)]
        · simp [appendErr, List.lookup, hk, hg, beq_eq_false_iff_ne.mpr hg,
            beq_eq_false_iff_ne.mpr (Ne.symm hk), ih]

theorem errorsFor_putError (g field : String) (e : ErrorDesc) (cs : Changeset) :
    errorsFor g (putError field e cs) =
      if g = field then errorsFor g cs ++ [e] else errorsFor g cs := by
  by_cases h : g = field <;>
    simp [errorsFor, putError, lookup_appendErr, h]

theorem errorsFor_putError_self (field : String) (e : ErrorDesc) (cs : Changeset) :
    errorsFor field (putError field e cs) = errorsFor field cs ++ [e] := by
  simp [errorsFor_putError]

theorem errorsFor_putChange (g field : String) (v : Value) (cs : Changeset) :
    errorsFor g (putChange field v cs) = errorsFor g cs := rfl

theorem getChange_congr {c1 c2 : Changeset} (field : String)
    (h : c2.changes = c1.changes) : getChange field c2 = getChange field c1 := by
  simp [getChange, h]

theorem errCount_congr {c1 c2 : Changeset} (h : c2.errors = c1.errors) :
    errCount c2 = errCount c1 := by simp [errCount, h]


theorem comparisonStep_cases (cmp : Value → Int → Bool) (tag msg : String) (n : Int)
    (c : Changeset) (f : String) :
    comparisonStep cmp tag msg n c f = c ∨
      ∃ e, comparisonStep cmp tag msg n c f = putError f e c := by
  unfold comparisonStep
  rcases h1 : getChange f c with ⟨ok, v⟩
  simp only [h1]
  cases ok
  · exact Or.inl (by simp)
  · by_cases h : cmp v n
    · exact Or.inl (by simp [h])
    · exact Or.inr ⟨⟨msg, tag, [("number", .vNum n)]⟩, by simp [h]⟩

theorem exclusionStep_cases (msg : String) (reserved : List Value)
    (c : Changeset) (f : String) :
    exclusionStep msg reserved c f = c ∨
      ∃ e, exclusionStep msg reserved c f = putError f e c := by
  unfold exclusionStep
  rcases h1 : getChange f c with ⟨ok, v⟩
  simp only [h1]
  cases ok
  · exact Or.inl (by simp)
  · by_cases h : reserved.any fun x => strictEq x v
    · exact Or.inr ⟨⟨msg, "exclusion", [("reserved", .vArr reserved)]⟩, by simp [h]⟩
    · exact Or.inl (by simp [h])

theorem inclusionStep_cases (msg : String) (includeVals : List Value)
    (c : Changeset) (f : String) :
    inclusionStep msg includeVals c f = c ∨
      ∃ e, inclusionStep msg includeVals c f = putError f e c := by
  unfold inclusionStep
  rcases h1 : getChange f c with ⟨ok, v⟩
  simp only [h1]
  cases ok
  · exact Or.inl (by simp)
  · by_cases h : includeVals.any fun x => strictEq x v
    · exact Or.inl (by simp [h])
    · exact Or.inr ⟨⟨msg, "inclusion", [("include", .vArr includeVals)]⟩, by simp [h]⟩

theorem confirmationStep_cases (msg : String) (c : Changeset) (f : String) :
    confirmationStep msg c f = c ∨
      ∃ e, confirmationStep msg c f = putError f e c := by
  unfold confirmationStep
  rcases h1 : getChange f c with ⟨okV, v⟩
  rcases h2 : getChange (f ++ "Confirmation") c with ⟨okC, w⟩
  simp only [h1, h2]
  by_cases hsk : !okV && !okC
  · exact Or.inl (by simp [hsk])
  · by_cases h : isEqual v w
    · exact Or.inl (by simp [hsk, h])
    · exact Or.inr ⟨⟨msg, "confirmation", [("confirmation", w)]⟩, by simp [hsk, h]⟩

theorem requiredStep_cases (msg : String) (c : Changeset) (f : String) :
    requiredStep msg c f = c ∨
      requiredStep msg c f = putChange f .vNull (putError f ⟨msg, "required", []⟩ c) := by
  unfold requiredStep
  rcases h1 : getChange f c with ⟨ok, v⟩
  rcases h2 : getField f c with ⟨ok2, v2⟩
  simp only [h1, h2]
  cases ok
  · by_cases h : requiredValid v2
    · exact Or.inl (by simp [h])
    · exact Or.inr (by simp [h])
  · by_cases h : requiredValid v
    · exact Or.inl (by simp [h])
    · exact Or.inr (by simp [h])

theorem pushErrors_data (f : String) (l : List ErrorDesc) (c : Changeset) :
    (l.foldl (fun a e => putError f e a) c).data = c.data := by
  induction l generalizing c with
  | nil => rfl
  | cons e rest ih => simp only [List.foldl_cons, ih, data_putError]

theorem pushErrors_changes (f : String) (l : List ErrorDesc) (c : Changeset) :
    (l.foldl (fun a e => putError f e a) c).changes = c.changes := by
  induction l generalizing c with
  | nil => rfl
  | cons e rest ih => simp only [List.foldl_cons, ih, changes_putError]

theorem pushErrors_errCount (f : String) (l : List ErrorDesc) (c : Changeset) :
    errCount (l.foldl (fun a e => putError f e a) c) = errCount c + l.length := by
  induction l generalizing c with
  | nil => rfl
  | cons e rest ih =>
      simp only [List.foldl_cons, ih, errCount_putError, List.length_cons]
      omega

theorem pushErrors_errorsFor (f g : String) (l : List ErrorDesc) (c : Changeset) :
    ∃ t, errorsFor g (l.foldl (fun a e => putError f e a) c) = errorsFor g c ++ t := by
  induction l generalizing c with
  | nil => exact ⟨[], by simp⟩
  | cons e rest ih =>
      obtain ⟨t, ht⟩ := ih (putError f e c)
      refine ⟨(if g = f then [e] else []) ++ t, ?_⟩
      rw [List.foldl_cons, ht, errorsFor_putError]
      by_cases h : g = f <;> simp [h]

theorem changeStep_data (validator : Value → List ErrorDesc) (c : Changeset) (f : String) :
    (changeStep validator c f).data = c.data := by
  unfold changeStep
  rcases h1 : getChange f c with ⟨ok, v⟩
  simp only [h1]
  cases ok
  · simp
  · simp [pushErrors_data]

theorem changeStep_changes (validator : Value → List ErrorDesc) (c : Changeset) (f : String) :
    (changeStep validator c f).changes = c.changes := by
  unfold changeStep
  rcases h1 : getChange f c with ⟨ok, v⟩
  simp only [h1]
  cases ok
  · simp
  · simp [pushErrors_changes]

theorem changeStep_errorsFor (validator : Value → List ErrorDesc) (c : Changeset)
    (f g : String) :
    ∃ t, errorsFor g (changeStep validator c f) = errorsFor g c ++ t := by
  unfold changeStep
  rcases h1 : getChange f c with ⟨ok, v⟩
  simp only [h1]
  cases ok
  · exact ⟨[], by simp⟩
  · simpa using pushErrors_errorsFor f g (validator v) c

theorem changeStep_dichotomy (validator : Value → List ErrorDesc) (c : Changeset)
    (f : String) :
    changeStep validator c f = c ∨ errCount c < errCount (changeStep validator c f) := by
  unfold changeStep
  rcases h1 : getChange f c with ⟨ok, v⟩
  simp only [h1]
  cases ok
  · exact Or.inl (by simp)
  · cases hl : validator v with
    | nil => exact Or.inl (by simp [hl])
    | cons e rest =>
        refine Or.inr ?_
        have hc := pushErrors_errCount f (e :: rest) c
        simp only [hl, List.length_cons] at hc ⊢
        simp only [Bool.not_true, Bool.false_eq_true, if_false]
        omega

theorem lengthStep_cases (cm : Option String) (mn mx : Int) (c : Changeset) (f : String) :
    (∃ e, lengthStep cm mn mx c f = .error e) ∨
      lengthStep cm mn mx c f = .ok c ∨
      ∃ d, lengthStep cm mn mx c f = .ok (putError f d c) := by
  unfold lengthStep
  rcases h1 : getChange f c with ⟨ok, v⟩
  simp only [h1]
  cases ok
  · exact Or.inr (Or.inl (by simp))
  · rcases v with _ | _ | b | n | s | xs | kvs
    case vNull =>
      exact Or.inl ⟨"Invalid type of \"" ++ f ++ "\". Valid types: string, array.", by simp⟩
    case vUndefined =>
      exact Or.inl ⟨"Invalid type of \"" ++ f ++ "\". Valid types: string, array.", by simp⟩
    case vBool =>
      exact Or.inl ⟨"Invalid type of \"" ++ f ++ "\". Valid types: string, array.", by simp⟩
    case vNum =>
      exact Or.inl ⟨"Invalid type of \"" ++ f ++ "\". Valid types: string, array.", by simp⟩
    case vObj =>
      exact Or.inl ⟨"Invalid type of \"" ++ f ++ "\". Valid types: string, array.", by simp⟩
    case vStr =>
      simp only [Bool.not_true, Bool.true_or, Bool.not_false, Bool.false_eq_true, if_false]
      split
      · exact Or.inr (Or.inr ⟨_, rfl⟩)
      · exact Or.inr (Or.inl rfl)
    case vArr =>
      simp only [Bool.not_true, Bool.or_true, Bool.not_false, Bool.false_eq_true, if_false]
      split
      · exact Or.inr (Or.inr ⟨_, rfl⟩)
      · exact Or.inr (Or.inl rfl)

theorem acceptanceStep_cases (msg : String) (c : Changeset) (f : String) :
    (∃ e, acceptanceStep msg c f = .error e) ∨
      acceptanceStep msg c f = .ok c ∨
      ∃ d, acceptanceStep msg c f = .ok (putError f d c) := by
  unfold acceptanceStep
  rcases h1 : getChange f c with ⟨ok, v⟩
  simp only [h1]
  cases ok
  · exact Or.inr (Or.inl (by simp))
  · rcases v with _ | _ | b | n | s | xs | kvs
    case vBool =>
      cases b
      · exact Or.inr (Or.inr ⟨⟨msg, "acceptance", []⟩, by simp⟩)
      · exact Or.inr (Or.inl (by simp))
    all_goals
      exact Or.inl ⟨"Invalid type of " ++ f ++ ". Valid types: boolean.", by simp⟩

theorem formatStep_cases (msg : String) (pat : Pattern) (c : Changeset) (f : String) :
    (∃ e, formatStep msg pat c f = .error e) ∨
      formatStep msg pat c f = .ok c ∨
      ∃ d, formatStep msg pat c f = .ok (putError f d c) := by
  unfold formatStep
  rcases h1 : getChange f c with ⟨ok, v⟩
  simp only [h1]
  cases ok
  · exact Or.inr (Or.inl (by simp))
  · rcases v with _ | _ | b | n | s | xs | kvs
    case vStr =>
      by_cases h : pat.test s
      · exact Or.inr (Or.inl (by simp [h]))
      · exact Or.inr (Or.inr ⟨⟨msg, "format", [("match", .vStr pat.source)]⟩, by simp [h]⟩)
    all_goals
      exact Or.inl ⟨"Invalid type of " ++ f ++ ". Valid types: string.", by simp⟩

theorem foldl_data {step : Changeset → String → Changeset}
    (h : ∀ c f, (step c f).data = c.data) (fields : List String) (cs : Changeset) :
    (fields.foldl step cs).data = cs.data := by
  induction fields generalizing cs with
  | nil => rfl
  | cons f rest ih => rw [List.foldl_cons, ih, h]

theorem foldl_changes {step : Changeset → String → Changeset}
    (h : ∀ c f, (step c f).changes = c.changes) (fields : List String) (cs : Changeset) :
    (fields.foldl step cs).changes = cs.changes := by
  induction fields generalizing cs with
  | nil => rfl
  | cons f rest ih => rw [List.foldl_cons, ih, h]

theorem foldl_errorsFor {step : Changeset → String → Changeset}
    (h : ∀ c f g, ∃ t, errorsFor g (step c f) = errorsFor g c ++ t)
    (fields : List String) (cs : Changeset) (g : String) :
    ∃ t, errorsFor g (fields.foldl step cs) = errorsFor g cs ++ t := by
  induction fields generalizing cs with
  | nil => exact ⟨[], by simp⟩
  | cons f rest ih =>
      obtain ⟨t1, ht1⟩ := h cs f g
      obtain ⟨t2, ht2⟩ := ih (step cs f)
      exact ⟨t1 ++ t2, by rw [List.foldl_cons, ht2, ht1, List.append_assoc]⟩

theorem foldl_changes_null {step : Changeset → String → Changeset}
    (h : ∀ c f g, List.lookup g (step c f).changes = List.lookup g c.changes ∨
      List.lookup g (step c f).changes = some .vNull)
    (fields : List String) (cs : Changeset) (g : String) :
    List.lookup g (fields.foldl step cs).changes = List.lookup g cs.changes ∨
      List.lookup g (fields.foldl step cs).changes = some .vNull := by
  induction fields generalizing cs with
  | nil => exact Or.inl rfl
  | cons f rest ih =>
      rw [List.foldl_cons]
      rcases ih (step cs f) with h2 | h2
      · rcases h cs f g with h1 | h1
        · exact Or.inl (h2.trans h1)
        · exact Or.inr (h2.trans h1)
      · exact Or.inr h2

theorem foldl_errCount_le {step : Changeset → String → Changeset}
    (h : ∀ c f, step c f = c ∨ errCount c < errCount (step c f))
    (fields : List String) (cs : Changeset) :
    errCount cs ≤ errCount (fields.foldl step cs) := by
  induction fields generalizing cs with
  | nil => exact le_refl _
  | cons f rest ih =>
      rw [List.foldl_cons]
      rcases h cs f with h1 | h1
      · rw [h1]; exact ih cs
      · exact le_trans (le_of_lt h1) (ih (step cs f))

theorem foldl_fix {step : Changeset → String → Changeset}
    (h : ∀ c f, step c f = c ∨ errCount c < errCount (step c f))
    (fields : List String) (cs : Changeset)
    (hfix : errCount (fields.foldl step cs) = errCount cs) :
    fields.foldl step cs = cs := by
  induction fields generalizing cs with
  | nil => rfl
  | cons f rest ih =>
      rw [List.foldl_cons] at hfix ⊢
      rcases h cs f with h1 | h1
      · rw [h1] at hfix ⊢
        exact ih cs hfix
      · exfalso
        have := foldl_errCount_le h rest (step cs f)
        omega

theorem foldE_ok_data {step : Changeset → String → Except String Changeset}
    (h : ∀ c f c2, step c f = .ok c2 → c2.data = c.data)
    (fields : List String) (cs out : Changeset)
    (hout : foldE step fields cs = .ok out) : out.data = cs.data := by
  induction fields generalizing cs with
  | nil =>
      simp only [foldE] at hout
      cases hout; rfl
  | cons f rest ih =>
      simp only [foldE] at hout
      cases hs : step cs f with
      | error e => rw [hs] at hout; cases hout
      | ok c2 =>
          rw [hs] at hout
          exact (ih c2 hout).trans (h cs f c2 hs)

theorem foldE_ok_changes {step : Changeset → String → Except String Changeset}
    (h : ∀ c f c2, step c f = .ok c2 → c2.changes = c.changes)
    (fields : List String) (cs out : Changeset)
    (hout : foldE step fields cs = .ok out) : out.changes = cs.changes := by
  induction fields generalizing cs with
  | nil =>
      simp only [foldE] at hout
      cases hout; rfl
  | cons f rest ih =>
      simp only [foldE] at hout
      cases hs : step cs f with
      | error e => rw [hs] at hout; cases hout
      | ok c2 =>
          rw [hs] at hout
          exact (ih c2 hout).trans (h cs f c2 hs)

theorem foldE_ok_errorsFor {step : Changeset → String → Except String Changeset}
    (h : ∀ c f c2 g, step c f = .ok c2 → ∃ t, errorsFor g c2 = errorsFor g c ++ t)
    (fields : List String) (cs out : Changeset)
    (hout : foldE step fields cs = .ok out) (g : String) :
    ∃ t, errorsFor g out = errorsFor g cs ++ t := by
  induction fields generalizing cs with
  | nil =>
      simp only [foldE] at hout
      cases hout
      exact ⟨[], by simp⟩
  | cons f rest ih =>
      simp only [foldE] at hout
      cases hs : step cs f with
      | error e => rw [hs] at hout; cases hout
      | ok c2 =>
          rw [hs] at hout
          obtain ⟨t1, ht1⟩ := h cs f c2 g hs
          obtain ⟨t2, ht2⟩ := ih c2 hout
          exact ⟨t1 ++ t2, by rw [ht2, ht1, List.append_assoc]⟩

theorem foldE_ok_errCount_le {step : Changeset → String → Except String Changeset}
    (h : ∀ c f c2, step c f = .ok c2 → errCount c ≤ errCount c2)
    (fields : List String) (cs out : Changeset)
    (hout : foldE step fields cs = .ok out) : errCount cs ≤ errCount out := by
  induction fields generalizing cs with
  | nil =>
      simp only [foldE] at hout
      cases hout; exact le_refl _
  | cons f rest ih =>
      simp only [foldE] at hout
      cases hs : step cs f with
      | error e => rw [hs] at hout; cases hout
      | ok c2 =>
          rw [hs] at hout
          exact le_trans (h cs f c2 hs) (ih c2 hout)

theorem foldE_fix {step : Changeset → String → Except String Changeset}
    (h : ∀ c f, step c f = .ok c ∨ (∃ e, step c f = .error e) ∨
      ∃ c2, step c f = .ok c2 ∧ errCount c < errCount c2)
    (fields : List String) (cs out : Changeset)
    (hout : foldE step fields cs = .ok out)
    (hfix : errCount out = errCount cs) : out = cs := by
  have hle : ∀ c f c2, step c f = .ok c2 → errCount c ≤ errCount c2 := by
    intro c f c2 hs
    rcases h c f with h1 | ⟨e, h1⟩ | ⟨c3, h1, h2⟩
    · rw [h1] at hs; cases hs; exact le_refl _
    · rw [h1] at hs; cases hs
    · rw [h1] at hs; cases hs; exact le_of_lt h2
  induction fields generalizing cs with
  | nil =>
      simp only [foldE] at hout
      cases hout; rfl
  | cons f rest ih =>
      simp only [foldE] at hout
      rcases h cs f with h1 | ⟨e, h1⟩ | ⟨c2, h1, h2⟩
      · rw [h1] at hout
        exact ih cs hout hfix
      · rw [h1] at hout; cases hout
      · rw [h1] at hout
        exfalso
        have := foldE_ok_errCount_le hle rest c2 out hout
        omega

theorem step_data_of_cases {step : Changeset → String → Changeset}
    (hc : ∀ c f, step c f = c ∨ ∃ e, step c f = putError f e c) :
    ∀ c f, (step c f).data = c.data := by
  intro c f
  rcases hc c f with h | ⟨e, h⟩ <;> rw [h] <;> rfl

theorem step_changes_of_cases {step : Changeset → String → Changeset}
    (hc : ∀ c f, step c f = c ∨ ∃ e, step c f = putError f e c) :
    ∀ c f, (step c f).changes = c.changes := by
  intro c f
  rcases hc c f with h | ⟨e, h⟩ <;> rw [h] <;> rfl

theorem step_errorsFor_of_cases {step : Changeset → String → Changeset}
    (hc : ∀ c f, step c f = c ∨ ∃ e, step c f = putError f e c) :
    ∀ c f g, ∃ t, errorsFor g (step c f) = errorsFor g c ++ t := by
  intro c f g
  rcases hc c f with h | ⟨e, h⟩
  · exact ⟨[], by rw [h]; simp⟩
  · rw [h, errorsFor_putError]
    by_cases hg : g = f
    · exact ⟨[e], by simp [hg]⟩
    · exact ⟨[], by simp [hg]⟩

theorem step_dichotomy_of_cases {step : Changeset → String → Changeset}
    (hc : ∀ c f, step c f = c ∨ ∃ e, step c f = putError f e c) :
    ∀ c f, step c f = c ∨ errCount c < errCount (step c f) := by
  intro c f
  rcases hc c f with h | ⟨e, h⟩
  · exact Or.inl h
  · refine Or.inr ?_
    rw [h, errCount_putError]
    omega

theorem requiredStep_data (msg : String) (c : Changeset) (f : String) :
    (requiredStep msg c f).data = c.data := by
  rcases requiredStep_cases msg c f with h | h <;> rw [h] <;> rfl

theorem requiredStep_errorsFor (msg : String) (c : Changeset) (f g : String) :
    ∃ t, errorsFor g (requiredStep msg c f) = errorsFor g c ++ t := by
  rcases requiredStep_cases msg c f with h | h
  · exact ⟨[], by rw [h]; simp⟩
  · rw [h, errorsFor_putChange, errorsFor_putError]
    by_cases hg : g = f
    · exact ⟨[⟨msg, "required", []⟩], by simp [hg]⟩
    · exact ⟨[], by simp [hg]⟩

theorem requiredStep_dichotomy (msg : String) (c : Changeset) (f : String) :
    requiredStep msg c f = c ∨ errCount c < errCount (requiredStep msg c f) := by
  rcases requiredStep_cases msg c f with h | h
  · exact Or.inl h
  · refine Or.inr ?_
    rw [h, errCount_putChange, errCount_putError]
    omega

theorem requiredStep_changes_null (msg : String) (c : Changeset) (f g : String) :
    List.lookup g (requiredStep msg c f).changes = List.lookup g c.changes ∨
      List.lookup g (requiredStep msg c f).changes = some .vNull := by
  rcases requiredStep_cases msg c f with h | h
  · rw [h]; exact Or.inl rfl
  · rw [h]
    have hch : (putChange f .vNull (putError f ⟨msg, "required", []⟩ c)).changes
        = updateA f .vNull c.changes := rfl
    rw [hch, lookup_updateA]
    by_cases hg : g = f
    · exact Or.inr (by simp [hg])
    · exact Or.inl (by simp [hg])

theorem stepE_ok_data_of_cases {step : Changeset → String → Except String Changeset}
    (hc : ∀ c f, (∃ e, step c f = .error e) ∨ step c f = .ok c ∨
      ∃ d, step c f = .ok (putError f d c)) :
    ∀ c f c2, step c f = .ok c2 → c2.data = c.data := by
  intro c f c2 hs
  rcases hc c f with ⟨e, h⟩ | h | ⟨d, h⟩ <;> rw [h] at hs <;> cases hs <;> rfl

theorem stepE_ok_changes_of_cases {step : Changeset → String → Except String Changeset}
    (hc : ∀ c f, (∃ e, step c f = .error e) ∨ step c f = .ok c ∨
      ∃ d, step c f = .ok (putError f d c)) :
    ∀ c f c2, step c f = .ok c2 → c2.changes = c.changes := by
  intro c f c2 hs
  rcases hc c f with ⟨e, h⟩ | h | ⟨d, h⟩ <;> rw [h] at hs <;> cases hs <;> rfl

theorem stepE_ok_errorsFor_of_cases {step : Changeset → String → Except String Changeset}
    (hc : ∀ c f, (∃ e, step c f = .error e) ∨ step c f = .ok c ∨
      ∃ d, step c f = .ok (putError f d c)) :
    ∀ c f c2 g, step c f = .ok c2 → ∃ t, errorsFor g c2 = errorsFor g c ++ t := by
  intro c f c2 g hs
  rcases hc c f with ⟨e, h⟩ | h | ⟨d, h⟩ <;> rw [h] at hs <;> cases hs
  · exact ⟨[], by simp⟩
  · rw [errorsFor_putError]
    by_cases hg : g = f
    · exact ⟨[d], by simp [hg]⟩
    · exact ⟨[], by simp [hg]⟩

theorem stepE_fix_of_cases {step : Changeset → String → Except String Changeset}
    (hc : ∀ c f, (∃ e, step c f = .error e) ∨ step c f = .ok c ∨
      ∃ d, step c f = .ok (putError f d c)) :
    ∀ c f, step c f = .ok c ∨ (∃ e, step c f = .error e) ∨
      ∃ c2, step c f = .ok c2 ∧ errCount c < errCount c2 := by
  intro c f
  rcases hc c f with ⟨e, h⟩ | h | ⟨d, h⟩
  · exact Or.inr (Or.inl ⟨e, h⟩)
  · exact Or.inl h
  · refine Or.inr (Or.inr ⟨putError f d c, h, ?_⟩)
    rw [errCount_putError]
    omega

theorem pure_fix_of_cases {step : Changeset → String → Changeset}
    (hc : ∀ c f, step c f = c ∨ ∃ e, step c f = putError f e c)
    (fields : List String) (cs : Changeset)
    (h : (fields.foldl step cs).errors = cs.errors) : fields.foldl step cs = cs :=
  foldl_fix (step_dichotomy_of_cases hc) fields cs (errCount_congr h)

/-- Claim C9: for every validator in the library and every changeset on which
one application of that validator (with fixed options) appends no errors
(`cs'.errors = cs.errors`), a second application with the same options
returns exactly the same changeset (`.ok cs'`) — in particular with no
additional errors and with `data` and `changes` unaltered. -/
theorem validators_idempotent_on_valid (v : ValidatorCall) (cs cs' : Changeset)
    (hrun : runValidator v cs = .ok cs') (herr : cs'.errors = cs.errors) :
    runValidator v cs' = .ok cs' := by
  cases v with
  | vcRequired o =>
      simp only [runValidator] at hrun ⊢
      have hh : required o cs = cs' := by injection hrun
      subst hh
      have hfix : required o cs = cs :=
        foldl_fix (requiredStep_dichotomy _) o.fields cs (errCount_congr herr)
      simp only [hfix]
  | vcLength o =>
      simp only [runValidator] at hrun ⊢
      have hfix : cs' = cs :=
        foldE_fix (stepE_fix_of_cases (lengthStep_cases o.message o.min o.max))
          o.fields cs cs' hrun (errCount_congr herr)
      subst hfix
      exact hrun
  | vcAcceptance o =>
      simp only [runValidator] at hrun ⊢
      have hfix : cs' = cs :=
        foldE_fix (stepE_fix_of_cases (acceptanceStep_cases _))
          o.fields cs cs' hrun (errCount_congr herr)
      subst hfix
      exact hrun
  | vcChange o =>
      simp only [runValidator] at hrun ⊢
      have hh : change o cs = cs' := by injection hrun
      subst hh
      have hfix : change o cs = cs :=
        foldl_fix (changeStep_dichotomy o.validator) o.fields cs (errCount_congr herr)
      simp only [hfix]
  | vcConfirmation o =>
      simp only [runValidator] at hrun ⊢
      have hh : confirmation o cs = cs' := by injection hrun
      subst hh
      have hfix : confirmation o cs = cs :=
        pure_fix_of_cases (confirmationStep_cases _) o.fields cs herr
      simp only [hfix]
  | vcExclusion o =>
      simp only [runValidator] at hrun ⊢
      have hh : exclusion o cs = cs' := by injection hrun
      subst hh
      have hfix : exclusion o cs = cs :=
        pure_fix_of_cases (exclusionStep_cases _ o.reserved) o.fields cs herr
      simp only [hfix]
  | vcInclusion o =>
      simp only [runValidator] at hrun ⊢
      have hh : inclusion o cs = cs' := by injection hrun
      subst hh
      have hfix : inclusion o cs = cs :=
        pure_fix_of_cases (inclusionStep_cases _ o.«include») o.fields cs herr
      simp only [hfix]
  | vcFormat o =>
      simp only [runValidator] at hrun ⊢
      have hfix : cs' = cs :=
        foldE_fix (stepE_fix_of_cases (formatStep_cases _ o.«match»))
          o.fields cs cs' hrun (errCount_congr herr)
      subst hfix
      exact hrun
  | vcLessThan o =>
      simp only [runValidator] at hrun ⊢
      have hh : lessThan o cs = cs' := by injection hrun
      subst hh
      have hfix : lessThan o cs = cs :=
        pure_fix_of_cases (comparisonStep_cases jsLtNum "less than" _ o.number)
          o.fields cs herr
      simp only [hfix]
  | vcGreaterThan o =>
      simp only [runValidator] at hrun ⊢
      have hh : greaterThan o cs = cs' := by injection hrun
      subst hh
      have hfix : greaterThan o cs = cs :=
        pure_fix_of_cases (comparisonStep_cases jsGtNum "greater than" _ o.number)
          o.fields cs herr
      simp only [hfix]
  | vcLessThanOrEqualTo o =>
      simp only [runValidator] at hrun ⊢
      have hh : lessThanOrEqualTo o cs = cs' := by injection hrun
      subst hh
      have hfix : lessThanOrEqualTo o cs = cs :=
        pure_fix_of_cases (comparisonStep_cases jsLeNum "less than or equal to" _ o.number)
          o.fields cs herr
      simp only [hfix]
  | vcGreaterThanOrEqualTo o =>
      simp only [runValidator] at hrun ⊢
      have hh : greaterThanOrEqualTo o cs = cs' := by injection hrun
      subst hh
      have hfix : greaterThanOrEqualTo o cs = cs :=
        pure_fix_of_cases
          (comparisonStep_cases jsGeNum "greater than or equal to" _ o.number)
          o.fields cs herr
      simp only [hfix]
  | vcEqualTo o =>
      simp only [runValidator] at hrun ⊢
      have hh : equalTo o cs = cs' := by injection hrun
      subst hh
      have hfix : equalTo o cs = cs :=
        pure_fix_of_cases (comparisonStep_cases jsLooseEqNum "equal to" _ o.number)
          o.fields cs herr
      simp only [hfix]

/-- Witness for C9: `greaterThan({fields:['age'], number:18})` on a changeset
whose pending `age` is `19` appends no error, and a second application
returns the same changeset unchanged. -/
theorem validators_idempotent_on_valid_witness :
    runValidator (.vcGreaterThan ⟨["age"], none, 18⟩)
      ⟨[], [("age", .vNum 19)], []⟩ = .ok ⟨[], [("age", .vNum 19)], []⟩ :=
  validators_idempotent_on_valid (.vcGreaterThan ⟨["age"], none, 18⟩)
    ⟨[], [("age", .vNum 19)], []⟩ ⟨[], [("age", .vNum 19)], []⟩ rfl rfl

/-- Claim C10: no validator of the library ever modifies the changeset's
`data` mapping; every validator's output extends the error lists only by
appended descriptors; the only validator that writes to the `changes` mapping
is `required`, and even `required` only ever writes `null` (every field's
change is either untouched or set to `null`). -/
theorem validators_frame_spec (v : ValidatorCall) (cs cs' : Changeset)
    (hrun : runValidator v cs = .ok cs') :
    cs'.data = cs.data ∧
    (∀ g, ∃ t, errorsFor g cs' = errorsFor g cs ++ t) ∧
    (v.isRequired = false → cs'.changes = cs.changes) ∧
    (∀ g, List.lookup g cs'.changes = List.lookup g cs.changes ∨
      List.lookup g cs'.changes = some .vNull) := by
  cases v with
  | vcRequired o =>
      simp only [runValidator] at hrun
      have hh : required o cs = cs' := by injection hrun
      subst hh
      refine ⟨foldl_data (requiredStep_data _) o.fields cs,
        fun g => foldl_errorsFor (requiredStep_errorsFor _) o.fields cs g, ?_,
        fun g => foldl_changes_null (requiredStep_changes_null _) o.fields cs g⟩
      intro hreq
      simp [ValidatorCall.isRequired] at hreq
  | vcLength o =>
      simp only [runValidator] at hrun
      have hch : cs'.changes = cs.changes :=
        foldE_ok_changes (stepE_ok_changes_of_cases (lengthStep_cases o.message o.min o.max))
          o.fields cs cs' hrun
      exact ⟨foldE_ok_data (stepE_ok_data_of_cases (lengthStep_cases o.message o.min o.max))
          o.fields cs cs' hrun,
        fun g => foldE_ok_errorsFor
          (stepE_ok_errorsFor_of_cases (lengthStep_cases o.message o.min o.max))
          o.fields cs cs' hrun g,
        fun _ => hch, fun g => Or.inl (by rw [hch])⟩
  | vcAcceptance o =>
      simp only [runValidator] at hrun
      have hch : cs'.changes = cs.changes :=
        foldE_ok_changes (stepE_ok_changes_of_cases (acceptanceStep_cases _))
          o.fields cs cs' hrun
      exact ⟨foldE_ok_data (stepE_ok_data_of_cases (acceptanceStep_cases _))
          o.fields cs cs' hrun,
        fun g => foldE_ok_errorsFor (stepE_ok_errorsFor_of_cases (acceptanceStep_cases _))
          o.fields cs cs' hrun g,
        fun _ => hch, fun g => Or.inl (by rw [hch])⟩
  | vcChange o =>
      simp only [runValidator] at hrun
      have hh : change o cs = cs' := by injection hrun
      subst hh
      have hch : (change o cs).changes = cs.changes :=
        foldl_changes (changeStep_changes o.validator) o.fields cs
      exact ⟨foldl_data (changeStep_data o.validator) o.fields cs,
        fun g => foldl_errorsFor (changeStep_errorsFor o.validator) o.fields cs g,
        fun _ => hch, fun g => Or.inl (by rw [hch])⟩
  | vcConfirmation o =>
      simp only [runValidator] at hrun
      have hh : confirmation o cs = cs' := by injection hrun
      subst hh
      have hch : (confirmation o cs).changes = cs.changes :=
        foldl_changes (step_changes_of_cases (confirmationStep_cases _)) o.fields cs
      exact ⟨foldl_data (step_data_of_cases (confirmationStep_cases _)) o.fields cs,
        fun g => foldl_errorsFor (step_errorsFor_of_cases (confirmationStep_cases _))
          o.fields cs g,
        fun _ => hch, fun g => Or.inl (by rw [hch])⟩
  | vcExclusion o =>
      simp only [runValidator] at hrun
      have hh : exclusion o cs = cs' := by injection hrun
      subst hh
      have hch : (exclusion o cs).changes = cs.changes :=
        foldl_changes (step_changes_of_cases (exclusionStep_cases _ o.reserved)) o.fields cs
      exact ⟨foldl_data (step_data_of_cases (exclusionStep_cases _ o.reserved)) o.fields cs,
        fun g => foldl_errorsFor (step_errorsFor_of_cases (exclusionStep_cases _ o.reserved))
          o.fields cs g,
        fun _ => hch, fun g => Or.inl (by rw [hch])⟩
  | vcInclusion o =>
      simp only [runValidator] at hrun
      have hh : inclusion o cs = cs' := by injection hrun
      subst hh
      have hch : (inclusion o cs).changes = cs.changes :=
        foldl_changes (step_changes_of_cases (inclusionStep_cases _ o.«include»)) o.fields cs
      exact ⟨foldl_data (step_data_of_cases (inclusionStep_cases _ o.«include»)) o.fields cs,
        fun g => foldl_errorsFor (step_errorsFor_of_cases (inclusionStep_cases _ o.«include»))
          o.fields cs g,
        fun _ => hch, fun g => Or.inl (by rw [hch])⟩
  | vcFormat o =>
      simp only [runValidator] at hrun
      have hch : cs'.changes = cs.changes :=
        foldE_ok_changes (stepE_ok_changes_of_cases (formatStep_cases _ o.«match»))
          o.fields cs cs' hrun
      exact ⟨foldE_ok_data (stepE_ok_data_of_cases (formatStep_cases _ o.«match»))
          o.fields cs cs' hrun,
        fun g => foldE_ok_errorsFor (stepE_ok_errorsFor_of_cases (formatStep_cases _ o.«match»))
          o.fields cs cs' hrun g,
        fun _ => hch, fun g => Or.inl (by rw [hch])⟩
  | vcLessThan o =>
      simp only [runValidator] at hrun
      have hh : lessThan o cs = cs' := by injection hrun
      subst hh
      have hc := comparisonStep_cases jsLtNum "less than"
        (o.message.getD ("must be less than " ++ toString o.number)) o.number
      have hch : (lessThan o cs).changes = cs.changes :=
        foldl_changes (step_changes_of_cases hc) o.fields cs
      exact ⟨foldl_data (step_data_of_cases hc) o.fields cs,
        fun g => foldl_errorsFor (step_errorsFor_of_cases hc) o.fields cs g,
        fun _ => hch, fun g => Or.inl (by rw [hch])⟩
  | vcGreaterThan o =>
      simp only [runValidator] at hrun
      have hh : greaterThan o cs = cs' := by injection hrun
      subst hh
      have hc := comparisonStep_cases jsGtNum "greater than"
        (o.message.getD ("must be greater than " ++ toString o.number)) o.number
      have hch : (greaterThan o cs).changes = cs.changes :=
        foldl_changes (step_changes_of_cases hc) o.fields cs
      exact ⟨foldl_data (step_data_of_cases hc) o.fields cs,
        fun g => foldl_errorsFor (step_errorsFor_of_cases hc) o.fields cs g,
        fun _ => hch, fun g => Or.inl (by rw [hch])⟩
  | vcLessThanOrEqualTo o =>
      simp only [runValidator] at hrun
      have hh : lessThanOrEqualTo o cs = cs' := by injection hrun
      subst hh
      have hc := comparisonStep_cases jsLeNum "less than or equal to"
        (o.message.getD ("must be less than or equal to " ++ toString o.number)) o.number
      have hch : (lessThanOrEqualTo o cs).changes = cs.changes :=
        foldl_changes (step_changes_of_cases hc) o.fields cs
      exact ⟨foldl_data (step_data_of_cases hc) o.fields cs,
        fun g => foldl_errorsFor (step_errorsFor_of_cases hc) o.fields cs g,
        fun _ => hch, fun g => Or.inl (by rw [hch])⟩
  | vcGreaterThanOrEqualTo o =>
      simp only [runValidator] at hrun
      have hh : greaterThanOrEqualTo o cs = cs' := by injection hrun
      subst hh
      have hc := comparisonStep_cases jsGeNum "greater than or equal to"
        (o.message.getD ("must be greater than or equal to " ++ toString o.number)) o.number
      have hch : (greaterThanOrEqualTo o cs).changes = cs.changes :=
        foldl_changes (step_changes_of_cases hc) o.fields cs
      exact ⟨foldl_data (step_data_of_cases hc) o.fields cs,
        fun g => foldl_errorsFor (step_errorsFor_of_cases hc) o.fields cs g,
        fun _ => hch, fun g => Or.inl (by rw [hch])⟩
  | vcEqualTo o =>
      simp only [runValidator] at hrun
      have hh : equalTo o cs = cs' := by injection hrun
      subst hh
      have hc := comparisonStep_cases jsLooseEqNum "equal to"
        (o.message.getD ("must be equal to " ++ toString o.number)) o.number
      have hch : (equalTo o cs).changes = cs.changes :=
        foldl_changes (step_changes_of_cases hc) o.fields cs
      exact ⟨foldl_data (step_data_of_cases hc) o.fields cs,
        fun g => foldl_errorsFor (step_errorsFor_of_cases hc) o.fields cs g,
        fun _ => hch, fun g => Or.inl (by rw [hch])⟩

/-- Witness for C10: `exclusion({fields:['name'], reserved:['admin']})` on a
changeset whose pending `name` is the reserved `"admin"` appends an error but
leaves `data` and `changes` exactly as they were. -/
theorem validators_frame_spec_witness :
    resData (runValidator (.vcExclusion ⟨["name"], none, [.vStr "admin"]⟩)
      ⟨[("k", .vNum 1)], [("name", .vStr "admin")], []⟩) = some [("k", .vNum 1)] ∧
    resChanges (runValidator (.vcExclusion ⟨["name"], none, [.vStr "admin"]⟩)
      ⟨[("k", .vNum 1)], [("name", .vStr "admin")], []⟩) = some [("name", .vStr "admin")] := by
  have h := validators_frame_spec (.vcExclusion ⟨["name"], none, [.vStr "admin"]⟩)
    ⟨[("k", .vNum 1)], [("name", .vStr "admin")], []⟩ _ rfl
  exact ⟨congrArg some h.1, congrArg some (h.2.2.1 rfl)⟩

/-- Claim C3: for every field `f`, applying `required({fields:[f]})` to a
changeset with no pending change, no persisted value and no prior errors for
`f` returns a changeset with exactly one error on `f`, tagged `required`
with the default message "can't be blank", and with `f`'s pending change set
to `null`. -/
theorem required_missing_field_spec (f : String) (cs : Changeset)
    (hch : List.lookup f cs.changes = none)
    (hda : List.lookup f cs.data = none)
    (herr : errorsFor f cs = []) :
    errorsFor f (required ⟨[f], none⟩ cs) = [⟨"can't be blank", "required", []⟩] ∧
    List.lookup f (required ⟨[f], none⟩ cs).changes = some .vNull := by
  have hstep : required ⟨[f], none⟩ cs
      = putChange f .vNull (putError f ⟨"can't be blank", "required", []⟩ cs) := by
    unfold required requiredStep
    simp [getChange, getField, hch, hda, requiredValid]
  rw [hstep]
  constructor
  · rw [errorsFor_putChange, errorsFor_putError_self, herr]
    simp
  · have hc : (putChange f .vNull (putError f ⟨"can't be blank", "required", []⟩ cs)).changes
        = updateA f .vNull cs.changes := rfl
    rw [hc, lookup_updateA]
    simp

/-- Witness for C3 at the field `title` and the empty changeset. -/
theorem required_missing_field_spec_witness :
    errorsFor "title" (required ⟨["title"], none⟩ ⟨[], [], []⟩)
      = [⟨"can't be blank", "required", []⟩] ∧
    List.lookup "title" (required ⟨["title"], none⟩ ⟨[], [], []⟩).changes
      = some .vNull :=
  required_missing_field_spec "title" ⟨[], [], []⟩ rfl rfl rfl

/-- Claim C2: on a changeset with no pending change, no persisted value and
no prior errors for `title`, the pipeline
`required({fields:['title']})` then `length({fields:['title'], min:5, max:100})`
yields exactly one `required` error on `title` and does not throw: the
`length` validator no-ops, because `required` set the pending change to
`null` and a `null` change does not count as a pending change —
even though `required` did write `title`'s pending change (to `null`). -/
theorem required_then_length_cascade (cs : Changeset)
    (hch : List.lookup "title" cs.changes = none)
    (hda : List.lookup "title" cs.data = none)
    (herr : errorsFor "title" cs = []) :
    length ⟨["title"], none, 5, 100⟩ (required ⟨["title"], none⟩ cs)
      = .ok (required ⟨["title"], none⟩ cs) ∧
    errorsFor "title" (required ⟨["title"], none⟩ cs)
      = [⟨"can't be blank", "required", []⟩] ∧
    List.lookup "title" (required ⟨["title"], none⟩ cs).changes = some .vNull := by
  have hstep : required ⟨["title"], none⟩ cs
      = putChange "title" .vNull (putError "title" ⟨"can't be blank", "required", []⟩ cs) := by
    unfold required requiredStep
    simp [getChange, getField, hch, hda, requiredValid]
  refine ⟨?_, ?_, ?_⟩
  · rw [hstep]
    unfold length foldE lengthStep
    have hlook : List.lookup "title"
        (putChange "title" .vNull (putError "title" ⟨"can't be blank", "required", []⟩ cs)).changes
        = some .vNull := by
      have hc : (putChange "title" .vNull
          (putError "title" ⟨"can't be blank", "required", []⟩ cs)).changes
          = updateA "title" .vNull cs.changes := rfl
      rw [hc, lookup_updateA]
      simp
    simp [getChange, hlook, foldE]
  · rw [hstep, errorsFor_putChange, errorsFor_putError_self, herr]
    simp
  · rw [hstep]
    have hc : (putChange "title" .vNull
        (putError "title" ⟨"can't be blank", "required", []⟩ cs)).changes
        = updateA "title" .vNull cs.changes := rfl
    rw [hc, lookup_updateA]
    simp

/-- Witness for C2 at the empty changeset. -/
theorem required_then_length_cascade_witness :
    length ⟨["title"], none, 5, 100⟩ (required ⟨["title"], none⟩ ⟨[], [], []⟩)
      = .ok (required ⟨["title"], none⟩ ⟨[], [], []⟩) ∧
    errorsFor "title" (required ⟨["title"], none⟩ ⟨[], [], []⟩)
      = [⟨"can't be blank", "required", []⟩] ∧
    List.lookup "title" (required ⟨["title"], none⟩ ⟨[], [], []⟩).changes
      = some .vNull :=
  required_then_length_cascade ⟨[], [], []⟩ rfl rfl rfl

/-- Claim C1 (refuted by the code, supporting the code-bug verdict): with
`min == max == 3`, the `length` validator flags the exact-length pending
change `"abc"` with the error "should be 3 character(s)" — the condition on
validators.js line 100 fires when the length EQUALS `min`, so an exact-length
match IS recorded as a violation, contradicting the claim (and the
validator's own doc comment, under which an exact-length value is the only
value that should pass when `min == max`).  The under-length part of the
claim does hold: `"ab"` gets "should be at least 3 character(s)". -/
theorem length_exact_match_bug :
    length ⟨["name"], none, 3, 3⟩ ⟨[], [("name", .vStr "abc")], []⟩
      = .ok ⟨[], [("name", .vStr "abc")],
          [("name", [⟨"should be 3 character(s)", "length",
            [("min", .vNum 3), ("max", .vNum 3)]⟩])]⟩ ∧
    length ⟨["name"], none, 3, 3⟩ ⟨[], [("name", .vStr "ab")], []⟩
      = .ok ⟨[], [("name", .vStr "ab")],
          [("name", [⟨"should be at least 3 character(s)", "length",
            [("min", .vNum 3), ("max", .vNum 3)]⟩])]⟩ := by
  constructor <;> rfl

theorem jsGtNum_vNum (m n : Int) : jsGtNum (.vNum m) n = decide (m > n) := by
  simp [jsGtNum, jsToNumber, toPrimitiveNum]

/-- Claim C7: for every changeset with a pending change `v` for a field,
`greaterThan({fields:[field], number:n})` appends an error tagged
"greater than" (carrying `number` and the default message) exactly when the
value is not strictly greater than `n`; in particular a pending value equal
to `n` yields the error (the boundary fails) and a pending value of `n + 1`
yields none. -/
theorem greaterThan_strict_boundary (field : String) (cs : Changeset) (n : Int) (v : Value)
    (h : getChange field cs = (true, v)) :
    (errorsFor field (greaterThan ⟨[field], none, n⟩ cs) =
      errorsFor field cs ++
        (if jsGtNum v n then []
         else [⟨"must be greater than " ++ toString n, "greater than",
           [("number", .vNum n)]⟩])) ∧
    (v = .vNum n →
      errorsFor field (greaterThan ⟨[field], none, n⟩ cs) =
        errorsFor field cs ++ [⟨"must be greater than " ++ toString n, "greater than",
          [("number", .vNum n)]⟩]) ∧
    (v = .vNum (n + 1) →
      errorsFor field (greaterThan ⟨[field], none, n⟩ cs) = errorsFor field cs) := by
  have hmain : errorsFor field (greaterThan ⟨[field], none, n⟩ cs) =
      errorsFor field cs ++
        (if jsGtNum v n then []
         else [⟨"must be greater than " ++ toString n, "greater than",
           [("number", .vNum n)]⟩]) := by
    unfold greaterThan comparisonStep
    simp only [List.foldl_cons, List.foldl_nil, h]
    by_cases hc : jsGtNum v n
    · simp [hc]
    · simp [hc, errorsFor_putError_self]
  refine ⟨hmain, ?_, ?_⟩
  · intro hv
    subst hv
    rw [hmain, jsGtNum_vNum]
    simp
  · intro hv
    subst hv
    rw [hmain, jsGtNum_vNum]
    simp

/-- Witness for C7 at `age`, `n = 18`, pending values `18` and `19`. -/
theorem greaterThan_strict_boundary_witness :
    (errorsFor "age" (greaterThan ⟨["age"], none, 18⟩ ⟨[], [("age", .vNum 18)], []⟩) =
      [] ++ [⟨"must be greater than " ++ toString (18 : Int), "greater than",
        [("number", .vNum 18)]⟩]) ∧
    (errorsFor "age" (greaterThan ⟨["age"], none, 18⟩ ⟨[], [("age", .vNum 19)], []⟩) = []) :=
  ⟨(greaterThan_strict_boundary "age" ⟨[], [("age", .vNum 18)], []⟩ 18
      (.vNum 18) rfl).2.1 rfl,
   (greaterThan_strict_boundary "age" ⟨[], [("age", .vNum 19)], []⟩ 18
      (.vNum 19) rfl).2.2 rfl⟩

/-- Claim C8: with a pending change `v`, `exclusion` appends an error (tag
`exclusion`, default message "is reserved") iff `v` strictly equals some
entry of the caller-supplied `reserved` list, and `inclusion` appends an
error (tag `inclusion`, default message "is invalid") iff `v` strictly
equals none of the entries of the caller-supplied `include` list; `strictEq`
performs no coercion. -/
theorem exclusion_inclusion_strict (field : String) (cs : Changeset) (v : Value)
    (reserved includeVals : List Value)
    (h : getChange field cs = (true, v)) :
    (errorsFor field (exclusion ⟨[field], none, reserved⟩ cs) =
      errorsFor field cs ++
        (if reserved.any fun x => strictEq x v then
          [⟨"is reserved", "exclusion", [("reserved", .vArr reserved)]⟩] else [])) ∧
    ((∃ x ∈ reserved, strictEq x v) ↔
      errorsFor field (exclusion ⟨[field], none, reserved⟩ cs) ≠ errorsFor field cs) ∧
    (errorsFor field (inclusion ⟨[field], none, includeVals⟩ cs) =
      errorsFor field cs ++
        (if includeVals.any fun x => strictEq x v then []
         else [⟨"is invalid", "inclusion", [("include", .vArr includeVals)]⟩])) ∧
    ((∀ x ∈ includeVals, ¬ strictEq x v) ↔
      errorsFor field (inclusion ⟨[field], none, includeVals⟩ cs) ≠ errorsFor field cs) := by
  have hex : errorsFor field (exclusion ⟨[field], none, reserved⟩ cs) =
      errorsFor field cs ++
        (if reserved.any fun x => strictEq x v then
          [⟨"is reserved", "exclusion", [("reserved", .vArr reserved)]⟩] else []) := by
    unfold exclusion exclusionStep
    simp only [List.foldl_cons, List.foldl_nil, h]
    by_cases hc : reserved.any fun x => strictEq x v
    · simp [hc, errorsFor_putError_self]
    · simp [hc]
  have hin : errorsFor field (inclusion ⟨[field], none, includeVals⟩ cs) =
      errorsFor field cs ++
        (if includeVals.any fun x => strictEq x v then []
         else [⟨"is invalid", "inclusion", [("include", .vArr includeVals)]⟩]) := by
    unfold inclusion inclusionStep
    simp only [List.foldl_cons, List.foldl_nil, h]
    by_cases hc : includeVals.any fun x => strictEq x v
    · simp [hc]
    · simp [hc, errorsFor_putError_self]
  refine ⟨hex, ?_, hin, ?_⟩
  · rw [hex]
    by_cases hc : (reserved.any fun x => strictEq x v) = true
    · refine iff_of_true (List.any_eq_true.mp hc) ?_
      simp only [hc, if_true]
      intro heq
      have := congrArg List.length heq
      simp at this
    · refine iff_of_false (fun hx => hc (List.any_eq_true.mpr hx)) ?_
      simp [hc]
  · rw [hin]
    by_cases hc : (includeVals.any fun x => strictEq x v) = true
    · obtain ⟨x, hx, hs⟩ := List.any_eq_true.mp hc
      refine iff_of_false (fun hall => (hall x hx) hs) ?_
      simp [hc]
    · refine iff_of_true ?_ ?_
      · intro x hx hs
        exact hc (List.any_eq_true.mpr ⟨x, hx, hs⟩)
      · simp only [hc, if_false]
        intro heq
        have := congrArg List.length heq
        simp at this

/-- Witness for C8: pending `role = "guest"`, reserved list `["root"]`,
include list `["admin", "user"]`: exclusion appends nothing, inclusion
appends its error. -/
theorem exclusion_inclusion_strict_witness :
    (errorsFor "role" (exclusion ⟨["role"], none, [.vStr "root"]⟩
      ⟨[], [("role", .vStr "guest")], []⟩) =
      [] ++ (if ([Value.vStr "root"].any fun x => strictEq x (.vStr "guest")) then
        [⟨"is reserved", "exclusion", [("reserved", .vArr [.vStr "root"])]⟩] else [])) ∧
    (errorsFor "role" (inclusion ⟨["role"], none, [.vStr "admin", .vStr "user"]⟩
      ⟨[], [("role", .vStr "guest")], []⟩) =
      [] ++ (if ([Value.vStr "admin", Value.vStr "user"].any fun x =>
          strictEq x (.vStr "guest")) then []
        else [⟨"is invalid", "inclusion",
          [("include", .vArr [.vStr "admin", .vStr "user"])]⟩])) :=
  ⟨(exclusion_inclusion_strict "role" ⟨[], [("role", .vStr "guest")], []⟩
      (.vStr "guest") [.vStr "root"] [.vStr "admin", .vStr "user"] rfl).1,
   (exclusion_inclusion_strict "role" ⟨[], [("role", .vStr "guest")], []⟩
      (.vStr "guest") [.vStr "root"] [.vStr "admin", .vStr "user"] rfl).2.2.1⟩

/-- Counterexample for C4: `confirmation({fields:['email']})` reads only the
PENDING changes, never the persisted data.  On a changeset whose persisted
`email` is `"a@b.com"` and whose pending `emailConfirmation` is the equal
string `"a@b.com"`, the effective values coincide (no mismatch), yet the
validator appends a `confirmation` error on `email` — because it compares
the pending value of `email` (`undefined`, there is no pending change) with
the pending confirmation value. -/
theorem confirmation_effective_values_counterexample :
    errorsFor "email" (confirmation ⟨["email"], none⟩
      ⟨[("email", .vStr "a@b.com")], [("emailConfirmation", .vStr "a@b.com")], []⟩)
      = [⟨"does not match", "confirmation", [("confirmation", .vStr "a@b.com")]⟩] ∧
    List.lookup "email" ((⟨[("email", .vStr "a@b.com")],
      [("emailConfirmation", .vStr "a@b.com")], []⟩ : Changeset)).data
      = some (.vStr "a@b.com") ∧
    List.lookup "emailConfirmation" ((⟨[("email", .vStr "a@b.com")],
      [("emailConfirmation", .vStr "a@b.com")], []⟩ : Changeset)).changes
      = some (.vStr "a@b.com") := by
  refine ⟨?_, rfl, rfl⟩
  have h1 : getChange "email"
      (⟨[("email", .vStr "a@b.com")], [("emailConfirmation", .vStr "a@b.com")], []⟩ : Changeset)
      = (false, .vUndefined) := rfl
  have h2 : getChange "emailConfirmation"
      (⟨[("email", .vStr "a@b.com")], [("emailConfirmation", .vStr "a@b.com")], []⟩ : Changeset)
      = (true, .vStr "a@b.com") := rfl
  have h3 : isEqual .vUndefined (.vStr "a@b.com") = false := by simp [isEqual]
  unfold confirmation confirmationStep
  simp [h1, h2, h3, errorsFor_putError_self, errorsFor]
  rfl

/-- Claim C4 (amended): the confirmation validator skips (no-op) when
neither the field nor its `...Confirmation` companion has a pending change;
otherwise it compares the PENDING change values with deep equality (a side
with no pending change contributes `undefined`; persisted data is never
consulted), and on mismatch appends exactly one error on the field (never on
the confirmation field) tagged `confirmation` with default message
"does not match", whose descriptor carries the confirmation value. -/
theorem confirmation_pending_values_spec (field : String) (cs : Changeset) :
    ((getChange field cs).1 = false → (getChange (field ++ "Confirmation") cs).1 = false →
      confirmation ⟨[field], none⟩ cs = cs) ∧
    (((getChange field cs).1 = true ∨ (getChange (field ++ "Confirmation") cs).1 = true) →
      isEqual (getChange field cs).2 (getChange (field ++ "Confirmation") cs).2 = true →
      confirmation ⟨[field], none⟩ cs = cs) ∧
    (((getChange field cs).1 = true ∨ (getChange (field ++ "Confirmation") cs).1 = true) →
      isEqual (getChange field cs).2 (getChange (field ++ "Confirmation") cs).2 = false →
      errorsFor field (confirmation ⟨[field], none⟩ cs) =
        errorsFor field cs ++ [⟨"does not match", "confirmation",
          [("confirmation", (getChange (field ++ "Confirmation") cs).2)]⟩] ∧
      (∀ g, g ≠ field → errorsFor g (confirmation ⟨[field], none⟩ cs) = errorsFor g cs) ∧
      (confirmation ⟨[field], none⟩ cs).changes = cs.changes ∧
      (confirmation ⟨[field], none⟩ cs).data = cs.data) := by
  rcases h1 : getChange field cs with ⟨okV, v⟩
  rcases h2 : getChange (field ++ "Confirmation") cs with ⟨okC, w⟩
  unfold confirmation confirmationStep
  simp only [List.foldl_cons, List.foldl_nil, h1, h2]
  refine ⟨?_, ?_, ?_⟩
  · intro ha hb
    subst ha
    subst hb
    simp
  · intro hor heq
    simp [heq]
  · intro hor heq
    have hne : (!okV && !okC) = false := by
      rcases hor with h | h <;> subst h <;> simp
    simp only [hne, Bool.false_eq_true, if_false, heq, if_neg]
    constructor
    · rw [errorsFor_putError_self]
      simp
    constructor
    · intro g hg
      rw [errorsFor_putError]
      simp [hg]
    exact ⟨rfl, rfl⟩

/-- Witness for the amended C4: pending `email = "x"`,
`emailConfirmation = "y"`: one `confirmation` error is appended on `email`,
carrying `"y"`, and `changes`/`data` are untouched. -/
theorem confirmation_pending_values_spec_witness :
    errorsFor "email" (confirmation ⟨["email"], none⟩
      ⟨[], [("email", .vStr "x"), ("emailConfirmation", .vStr "y")], []⟩)
      = errorsFor "email"
          (⟨[], [("email", .vStr "x"), ("emailConfirmation", .vStr "y")], []⟩ : Changeset)
        ++ [⟨"does not match", "confirmation", [("confirmation", .vStr "y")]⟩] ∧
    (confirmation ⟨["email"], none⟩
      ⟨[], [("email", .vStr "x"), ("emailConfirmation", .vStr "y")], []⟩).changes
      = [("email", .vStr "x"), ("emailConfirmation", .vStr "y")] := by
  have h := (confirmation_pending_values_spec "email"
    ⟨[], [("email", .vStr "x"), ("emailConfirmation", .vStr "y")], []⟩).2.2
    (Or.inl rfl) (show isEqual (.vStr "x") (.vStr "y") = false by simp [isEqual])
  exact ⟨h.1, h.2.2.1⟩

theorem foldE_singleton (step : Changeset → String → Except String Changeset)
    (f : String) (cs c2 : Changeset) (h : step cs f = .ok c2) :
    foldE step [f] cs = .ok c2 := by
  simp [foldE, h]

/-- Counterexample for C6: (a) on a pending 6-item array with
`min = 2, max = 5` the appended message is "should have at most 5 items(s)"
— the verb is "have", not the claimed "be"; (b) when the options are
inverted (`min = 5, max = 1`) a pending string of length 3 IS shorter than
`min`, yet the appended message is the `max` message (the last assignment on
validators.js line 102 wins), not the claimed "should be at least 5
character(s)". -/
theorem length_message_counterexample :
    length ⟨["tags"], none, 2, 5⟩
      ⟨[], [("tags", .vArr [.vNum 1, .vNum 2, .vNum 3, .vNum 4, .vNum 5, .vNum 6])], []⟩
      = .ok ⟨[], [("tags", .vArr [.vNum 1, .vNum 2, .vNum 3, .vNum 4, .vNum 5, .vNum 6])],
          [("tags", [⟨"should have at most 5 items(s)", "length",
            [("min", .vNum 2), ("max", .vNum 5)]⟩])]⟩ ∧
    "should have at most 5 items(s)" ≠ "should be at most 5 items(s)" ∧
    length ⟨["name"], none, 5, 1⟩ ⟨[], [("name", .vStr "abc")], []⟩
      = .ok ⟨[], [("name", .vStr "abc")],
          [("name", [⟨"should be at most 1 character(s)", "length",
            [("min", .vNum 5), ("max", .vNum 1)]⟩])]⟩ ∧
    "should be at most 1 character(s)" ≠ "should be at least 5 character(s)" := by
  exact ⟨rfl, by decide, rfl, by decide⟩

theorem lengthStep_string_min (cm : Option String) (mn mx : Int) (cs : Changeset)
    (field : String) (s : String) (h : getChange field cs = (true, .vStr s))
    (hlen : (s.length : Int) < mn) (hle : mn ≤ mx) :
    lengthStep cm mn mx cs field = .ok (putError field
      ⟨cm.getD ("should be at least " ++ toString mn ++ " character(s)"), "length",
       [("min", .vNum mn), ("max", .vNum mx)]⟩ cs) := by
  unfold lengthStep
  rw [h]
  have h1 : (mn == (s.length : Int)) = false := by
    simp only [beq_eq_false_iff_ne]
    omega
  have h3 : ¬ ((s.length : Int) > mx) := by omega
  simp [h1, hlen, h3]

theorem lengthStep_array_max (cm : Option String) (mn mx : Int) (cs : Changeset)
    (field : String) (xs : List Value) (h : getChange field cs = (true, .vArr xs))
    (hlen : (xs.length : Int) > mx) :
    lengthStep cm mn mx cs field = .ok (putError field
      ⟨cm.getD ("should have at most " ++ toString mx ++ " items(s)"), "length",
       [("min", .vNum mn), ("max", .vNum mx)]⟩ cs) := by
  unfold lengthStep
  rw [h]
  simp [hlen]

/-- Claim C6 (amended): for every pending string change shorter than `min`
(under well-formed options, `min ≤ max`), the length validator appends an
error tagged `length` carrying `min` and `max` with message
"should be at least {min} character(s)"; for every pending array change
longer than `max` it appends "should have at most {max} items(s)" — strings
use the unit noun "character(s)" and arrays the verbatim quirk "items(s)". -/
theorem length_message_spec (field : String) (cs : Changeset) (mn mx : Int)
    (s : String) (xs : List Value) :
    (getChange field cs = (true, .vStr s) → (s.length : Int) < mn → mn ≤ mx →
      length ⟨[field], none, mn, mx⟩ cs =
        .ok (putError field ⟨"should be at least " ++ toString mn ++ " character(s)",
          "length", [("min", .vNum mn), ("max", .vNum mx)]⟩ cs)) ∧
    (getChange field cs = (true, .vArr xs) → (xs.length : Int) > mx →
      length ⟨[field], none, mn, mx⟩ cs =
        .ok (putError field ⟨"should have at most " ++ toString mx ++ " items(s)",
          "length", [("min", .vNum mn), ("max", .vNum mx)]⟩ cs)) := by
  constructor
  · intro h hlen hle
    exact foldE_singleton _ field cs _ (lengthStep_string_min none mn mx cs field s h hlen hle)
  · intro h hlen
    exact foldE_singleton _ field cs _ (lengthStep_array_max none mn mx cs field xs h hlen)

/-- Witness for the amended C6: `"ab"` with `min = 3 ≤ max = 100` gets the
string `min` message; a 6-item array with `max = 5` gets the array `max`
message. -/
theorem length_message_spec_witness :
    length ⟨["name"], none, 3, 100⟩ ⟨[], [("name", .vStr "ab")], []⟩ =
      .ok (putError "name" ⟨"should be at least " ++ toString (3 : Int) ++ " character(s)",
        "length", [("min", .vNum 3), ("max", .vNum 100)]⟩
        ⟨[], [("name", .vStr "ab")], []⟩) ∧
    length ⟨["tags"], none, 2, 5⟩
      ⟨[], [("tags", .vArr [.vNum 1, .vNum 2, .vNum 3, .vNum 4, .vNum 5, .vNum 6])], []⟩ =
      .ok (putError "tags" ⟨"should have at most " ++ toString (5 : Int) ++ " items(s)",
        "length", [("min", .vNum 2), ("max", .vNum 5)]⟩
        ⟨[], [("tags", .vArr [.vNum 1, .vNum 2, .vNum 3, .vNum 4, .vNum 5, .vNum 6])], []⟩) :=
  ⟨(length_message_spec "name" ⟨[], [("name", .vStr "ab")], []⟩ 3 100 "ab" []).1
      rfl (by decide) (by decide),
   (length_message_spec "tags"
      ⟨[], [("tags", .vArr [.vNum 1, .vNum 2, .vNum 3, .vNum 4, .vNum 5, .vNum 6])], []⟩ 2 5 ""
      [.vNum 1, .vNum 2, .vNum 3, .vNum 4, .vNum 5, .vNum 6]).2 rfl (by decide)⟩

/-- The value types `length` accepts (validators.js line 82). -/
def isStrOrArr : Value → Bool
  | .vStr _ => true
  | .vArr _ => true
  | _ => false

/-- The value type `acceptance` accepts (validators.js line 134). -/
def isBoolV : Value → Bool
  | .vBool _ => true
  | _ => false

/-- The value type `format` accepts (validators.js line 262). -/
def isStrV : Value → Bool
  | .vStr _ => true
  | _ => false

theorem lengthStep_error_of_badtype (cm : Option String) (mn mx : Int) (cs : Changeset)
    (f : String) (hok : (getChange f cs).1 = true)
    (hbad : isStrOrArr (getChange f cs).2 = false) :
    ∃ e, lengthStep cm mn mx cs f = .error e := by
  unfold lengthStep
  rcases hgc : getChange f cs with ⟨ok, v⟩
  rw [hgc] at hok hbad
  simp only at hok hbad
  subst hok
  rcases v with _ | _ | b | n | s | xs | kvs
  case vStr => simp [isStrOrArr] at hbad
  case vArr => simp [isStrOrArr] at hbad
  all_goals
    exact ⟨"Invalid type of \"" ++ f ++ "\". Valid types: string, array.", by simp⟩

theorem lengthStep_ok_of_welltyped (cm : Option String) (mn mx : Int) (cs : Changeset)
    (f : String)
    (hgood : (getChange f cs).1 = true → isStrOrArr (getChange f cs).2 = true) :
    ∃ c2, lengthStep cm mn mx cs f = .ok c2 ∧ c2.changes = cs.changes ∧ c2.data = cs.data := by
  unfold lengthStep
  rcases hgc : getChange f cs with ⟨ok, v⟩
  rw [hgc] at hgood
  simp only at hgood
  cases ok
  · exact ⟨cs, by simp, rfl, rfl⟩
  · have hv := hgood rfl
    rcases v with _ | _ | b | n | s | xs | kvs <;> simp [isStrOrArr] at hv
    case vStr =>
      simp only [Bool.not_true, Bool.true_or, Bool.not_false, Bool.false_eq_true, if_false]
      split
      · exact ⟨_, rfl, rfl, rfl⟩
      · exact ⟨cs, rfl, rfl, rfl⟩
    case vArr =>
      simp only [Bool.not_true, Bool.or_true, Bool.not_false, Bool.false_eq_true, if_false]
      split
      · exact ⟨_, rfl, rfl, rfl⟩
      · exact ⟨cs, rfl, rfl, rfl⟩

theorem acceptanceStep_error_of_badtype (msg : String) (cs : Changeset) (f : String)
    (hok : (getChange f cs).1 = true) (hbad : isBoolV (getChange f cs).2 = false) :
    ∃ e, acceptanceStep msg cs f = .error e := by
  unfold acceptanceStep
  rcases hgc : getChange f cs with ⟨ok, v⟩
  rw [hgc] at hok hbad
  simp only at hok hbad
  subst hok
  rcases v with _ | _ | b | n | s | xs | kvs
  case vBool => simp [isBoolV] at hbad
  all_goals exact ⟨"Invalid type of " ++ f ++ ". Valid types: boolean.", by simp⟩

theorem acceptanceStep_ok_of_welltyped (msg : String) (cs : Changeset) (f : String)
    (hgood : (getChange f cs).1 = true → isBoolV (getChange f cs).2 = true) :
    ∃ c2, acceptanceStep msg cs f = .ok c2 ∧ c2.changes = cs.changes ∧ c2.data = cs.data := by
  unfold acceptanceStep
  rcases hgc : getChange f cs with ⟨ok, v⟩
  rw [hgc] at hgood
  simp only at hgood
  cases ok
  · exact ⟨cs, by simp, rfl, rfl⟩
  · have hv := hgood rfl
    rcases v with _ | _ | b | n | s | xs | kvs <;> simp [isBoolV] at hv
    cases b
    · exact ⟨putError f ⟨msg, "acceptance", []⟩ cs, by simp, rfl, rfl⟩
    · exact ⟨cs, by simp, rfl, rfl⟩

theorem formatStep_error_of_badtype (msg : String) (pat : Pattern) (cs : Changeset)
    (f : String) (hok : (getChange f cs).1 = true)
    (hbad : isStrV (getChange f cs).2 = false) :
    ∃ e, formatStep msg pat cs f = .error e := by
  unfold formatStep
  rcases hgc : getChange f cs with ⟨ok, v⟩
  rw [hgc] at hok hbad
  simp only at hok hbad
  subst hok
  rcases v with _ | _ | b | n | s | xs | kvs
  case vStr => simp [isStrV] at hbad
  all_goals exact ⟨"Invalid type of " ++ f ++ ". Valid types: string.", by simp⟩

theorem formatStep_ok_of_welltyped (msg : String) (pat : Pattern) (cs : Changeset)
    (f : String)
    (hgood : (getChange f cs).1 = true → isStrV (getChange f cs).2 = true) :
    ∃ c2, formatStep msg pat cs f = .ok c2 ∧ c2.changes = cs.changes ∧ c2.data = cs.data := by
  unfold formatStep
  rcases hgc : getChange f cs with ⟨ok, v⟩
  rw [hgc] at hgood
  simp only at hgood
  cases ok
  · exact ⟨cs, by simp, rfl, rfl⟩
  · have hv := hgood rfl
    rcases v with _ | _ | b | n | s | xs | kvs <;> simp [isStrV] at hv
    by_cases h : pat.test s
    · exact ⟨cs, by simp [h], rfl, rfl⟩
    · exact ⟨putError f ⟨msg, "format", [("match", .vStr pat.source)]⟩ cs,
        by simp [h], rfl, rfl⟩

theorem foldE_throws_of_bad {step : Changeset → String → Except String Changeset}
    {good : Value → Bool}
    (hthrow : ∀ c f, (getChange f c).1 = true → good (getChange f c).2 = false →
      ∃ e, step c f = .error e)
    (hpres : ∀ c f c2, step c f = .ok c2 → c2.changes = c.changes)
    (fields : List String) (f : String) :
    ∀ cs : Changeset, f ∈ fields → (getChange f cs).1 = true →
      good (getChange f cs).2 = false → throws (foldE step fields cs) = true := by
  induction fields with
  | nil =>
      intro cs hf
      cases hf
  | cons g rest ih =>
      intro cs hf hok hbad
      rcases List.mem_cons.mp hf with rfl | hfr
      · obtain ⟨e, he⟩ := hthrow cs f hok hbad
        simp [foldE, he, throws]
      · cases hs : step cs g with
        | error e => simp [foldE, hs, throws]
        | ok c2 =>
            have hgc : getChange f c2 = getChange f cs := getChange_congr f (hpres cs g c2 hs)
            simp only [foldE, hs]
            exact ih c2 hfr (by rw [hgc]; exact hok) (by rw [hgc]; exact hbad)

theorem foldE_ok_of_good {step : Changeset → String → Except String Changeset}
    {good : Value → Bool}
    (hstep : ∀ c f, ((getChange f c).1 = true → good (getChange f c).2 = true) →
      ∃ c2, step c f = .ok c2 ∧ c2.changes = c.changes ∧ c2.data = c.data)
    (fields : List String) :
    ∀ cs : Changeset,
      (∀ f ∈ fields, (getChange f cs).1 = true → good (getChange f cs).2 = true) →
      ∃ out, foldE step fields cs = .ok out ∧ out.data = cs.data ∧
        out.changes = cs.changes := by
  induction fields with
  | nil =>
      intro cs _
      exact ⟨cs, rfl, rfl, rfl⟩
  | cons g rest ih =>
      intro cs hall
      obtain ⟨c2, hs, hch, hd⟩ := hstep cs g (hall g (List.mem_cons_self g rest))
      obtain ⟨out, hout, hod, hoc⟩ := ih c2 (fun f hf => by
        rw [getChange_congr f hch]
        exact hall f (List.mem_cons_of_mem g hf))
      exact ⟨out, by simp [foldE, hs, hout], hod.trans hd, hoc.trans hch⟩

/-- Claim C5: a pending change of the wrong type makes the validator call
abort by throwing (an `Except.error`, so no changeset is returned and the
misuse is never recorded as an error descriptor): a non-string/non-array for
`length`, a non-boolean for `acceptance`, a non-string for `format`;
conversely, when every pending change the call looks at is well typed, these
validators never throw and record failures only as error descriptors — the
returned changeset's `data` and `changes` are exactly the input's. -/
theorem misuse_type_errors_spec :
    (∀ (o : LengthOpts) (cs : Changeset) (f : String), f ∈ o.fields →
      (getChange f cs).1 = true → isStrOrArr (getChange f cs).2 = false →
      throws (length o cs) = true) ∧
    (∀ (o : LengthOpts) (cs : Changeset),
      (∀ f ∈ o.fields, (getChange f cs).1 = true → isStrOrArr (getChange f cs).2 = true) →
      throws (length o cs) = false ∧ resData (length o cs) = some cs.data ∧
        resChanges (length o cs) = some cs.changes) ∧
    (∀ (o : AcceptanceOpts) (cs : Changeset) (f : String), f ∈ o.fields →
      (getChange f cs).1 = true → isBoolV (getChange f cs).2 = false →
      throws (acceptance o cs) = true) ∧
    (∀ (o : AcceptanceOpts) (cs : Changeset),
      (∀ f ∈ o.fields, (getChange f cs).1 = true → isBoolV (getChange f cs).2 = true) →
      throws (acceptance o cs) = false ∧ resData (acceptance o cs) = some cs.data ∧
        resChanges (acceptance o cs) = some cs.changes) ∧
    (∀ (o : FormatOpts) (cs : Changeset) (f : String), f ∈ o.fields →
      (getChange f cs).1 = true → isStrV (getChange f cs).2 = false →
      throws (format o cs) = true) ∧
    (∀ (o : FormatOpts) (cs : Changeset),
      (∀ f ∈ o.fields, (getChange f cs).1 = true → isStrV (getChange f cs).2 = true) →
      throws (format o cs) = false ∧ resData (format o cs) = some cs.data ∧
        resChanges (format o cs) = some cs.changes) := by
  refine ⟨?_, ?_, ?_, ?_, ?_, ?_⟩
  · intro o cs f hf hok hbad
    exact foldE_throws_of_bad (lengthStep_error_of_badtype o.message o.min o.max)
      (stepE_ok_changes_of_cases (lengthStep_cases o.message o.min o.max))
      o.fields f cs hf hok hbad
  · intro o cs hall
    obtain ⟨out, hout, hd, hc⟩ :=
      foldE_ok_of_good (lengthStep_ok_of_welltyped o.message o.min o.max) o.fields cs hall
    unfold length
    rw [hout]
    exact ⟨rfl, by simp [resData, hd], by simp [resChanges, hc]⟩
  · intro o cs f hf hok hbad
    exact foldE_throws_of_bad (acceptanceStep_error_of_badtype _)
      (stepE_ok_changes_of_cases (acceptanceStep_cases _)) o.fields f cs hf hok hbad
  · intro o cs hall
    obtain ⟨out, hout, hd, hc⟩ :=
      foldE_ok_of_good (acceptanceStep_ok_of_welltyped (o.message.getD "must be accepted"))
        o.fields cs hall
    unfold acceptance
    rw [hout]
    exact ⟨rfl, by simp [resData, hd], by simp [resChanges, hc]⟩
  · intro o cs f hf hok hbad
    exact foldE_throws_of_bad (formatStep_error_of_badtype _ o.«match»)
      (stepE_ok_changes_of_cases (formatStep_cases _ o.«match»)) o.fields f cs hf hok hbad
  · intro o cs hall
    obtain ⟨out, hout, hd, hc⟩ :=
      foldE_ok_of_good
        (formatStep_ok_of_welltyped (o.message.getD "has invalid format") o.«match»)
        o.fields cs hall
    unfold format
    rw [hout]
    exact ⟨rfl, by simp [resData, hd], by simp [resChanges, hc]⟩

/-- Witness for C5: a boolean pending change makes `length` throw, a string
makes `acceptance` throw, a number makes `format` throw; on a well-typed
string change, `length` returns a changeset with the same data and changes. -/
theorem misuse_type_errors_spec_witness :
    throws (length ⟨["rules"], none, 1, 2⟩ ⟨[], [("rules", .vBool true)], []⟩) = true ∧
    throws (acceptance ⟨["rules"], none⟩ ⟨[], [("rules", .vStr "yes")], []⟩) = true ∧
    throws (format ⟨["name"], none, ⟨"abc", fun s => s = "abc"⟩⟩
      ⟨[], [("name", .vNum 7)], []⟩) = true ∧
    throws (length ⟨["name"], none, 1, 2⟩ ⟨[], [("name", .vStr "ab")], []⟩) = false ∧
    resData (length ⟨["name"], none, 1, 2⟩ ⟨[], [("name", .vStr "ab")], []⟩) = some [] ∧
    resChanges (length ⟨["name"], none, 1, 2⟩ ⟨[], [("name", .vStr "ab")], []⟩)
      = some [("name", .vStr "ab")] := by
  have hgood := misuse_type_errors_spec.2.1 ⟨["name"], none, 1, 2⟩
    ⟨[], [("name", .vStr "ab")], []⟩
    (by
      intro f hf hok
      rcases List.mem_singleton.mp hf
      rfl)
  refine ⟨?_, ?_, ?_, hgood.1, hgood.2.1, hgood.2.2⟩
  · exact misuse_type_errors_spec.1 ⟨["rules"], none, 1, 2⟩
      ⟨[], [("rules", .vBool true)], []⟩ "rules" (by simp) rfl rfl
  · exact misuse_type_errors_spec.2.2.1 ⟨["rules"], none⟩
      ⟨[], [("rules", .vStr "yes")], []⟩ "rules" (by simp) rfl rfl
  · exact misuse_type_errors_spec.2.2.2.2.1 ⟨["name"], none, ⟨"abc", fun s => s = "abc"⟩⟩
      ⟨[], [("name", .vNum 7)], []⟩ "name" (by simp) rfl rfl
